import Mathlib

/-!
Verification development for the Tripsit add-on dose pipeline
(`tools_2.0/erowid/extract_doses_2.0.py`).

Python floats are modelled as exact rationals (`ℚ`); every float produced by
the dose parsers is an exact decimal fraction, and `pyFloatRepr` mirrors
Python's `str()` rendering of such values (integer part, '.', fraction digits,
with a trailing ".0" for integral values).
-/

namespace Tripsit

/-- Characters matched by Python's `\s` / stripped by `str.strip()` (ASCII range). -/
def isPySpace (c : Char) : Bool :=
  c == ' ' || c == '\t' || c == '\n' || c == '\r' || c == '\x0b' || c == '\x0c'

/-- `str.strip()`. -/
def pyStrip (s : String) : String :=
  (((s.toList.dropWhile isPySpace).reverse.dropWhile isPySpace).reverse).asString

/-- Numeric value of a digit string. -/
def digitsVal (cs : List Char) : Nat :=
  cs.foldl (fun a c => 10 * a + (c.toNat - 48)) 0

/-- Anchored match of the regex group `(\d+(?:\.\d+)?)`: integer digits plus an
optional fractional digit run, returning the group and the unconsumed rest. -/
def numSpan (cs : List Char) : Option ((List Char × Option (List Char)) × List Char) :=
  let ip := cs.takeWhile Char.isDigit
  let r1 := cs.dropWhile Char.isDigit
  if ip = [] then none
  else
    match r1 with
    | '.' :: r2 =>
      let fp := r2.takeWhile Char.isDigit
      if fp = [] then some ((ip, none), r1)
      else some ((ip, some fp), r2.dropWhile Char.isDigit)
    | _ => some ((ip, none), r1)

/-- Value of a matched number group, as Python `float()` of its text (exact). -/
def numVal : List Char × Option (List Char) → ℚ
  | (ip, none) => Rat.divInt (digitsVal ip) 1
  | (ip, some fp) =>
    Rat.divInt (digitsVal ip * 10 ^ fp.length + digitsVal fp) (10 ^ fp.length)

/-- Characters of the regex class `[a-zµ]`. -/
def isUnitChar (c : Char) : Bool :=
  ('a' ≤ c && c ≤ 'z') || c == 'µ'

/-- `str.lower()` (ASCII case mapping; the only non-ASCII character reachable
here, 'µ', is fixed by both Python's and this mapping). -/
def pyToLower (s : String) : String :=
  (s.toList.map Char.toLower).asString

/-- The cleanup `analyze_doses` applies to each dose string:
`d.strip().lower().replace(",", "")`. -/
def cleanDoseStr (s : String) : List Char :=
  ((pyToLower (pyStrip s)).toList).filter (· != ',')

/-- The per-string parser inside `analyze_doses`:
`re.match(r'(\d+(?:\.\d+)?)\s*([a-zµ]+)', d_str)` on the cleaned string,
yielding `(float value, unit token)`. -/
def parseDose (d : String) : Option (ℚ × String) :=
  match numSpan (cleanDoseStr d) with
  | none => none
  | some (g, rest) =>
    let rest2 := rest.dropWhile isPySpace
    let u := rest2.takeWhile isUnitChar
    if u = [] then none else some (numVal g, u.asString)

/-- The `parsed` list built by the first loop of `analyze_doses`. -/
def parsedDoses (doses : List String) : List (ℚ × String) :=
  doses.filterMap parseDose

/-- Keys of the `unit_counts` dict in insertion order (first occurrence of each unit). -/
def unitsInOrder (parsed : List (ℚ × String)) : List String :=
  parsed.foldl (fun acc p => if p.2 ∈ acc then acc else acc ++ [p.2]) []

/-- `unit_counts[u]`. -/
def unitCount (parsed : List (ℚ × String)) (u : String) : Nat :=
  (parsed.filter (fun p => p.2 == u)).length

/-- Fold mirroring Python's `max(unit_counts, key=unit_counts.get)`: the first key
(in insertion order) attaining the maximal count, since `max` only replaces its
candidate on a strictly greater key. -/
def maxByCount (parsed : List (ℚ × String)) : List String → String → String
  | [], best => best
  | u :: us, best =>
    maxByCount parsed us (if unitCount parsed u > unitCount parsed best then u else best)

/-- `most_common_unit = max(unit_counts, key=unit_counts.get)`. -/
def mostCommonUnit (parsed : List (ℚ × String)) : String :=
  match unitsInOrder parsed with
  | [] => ""
  | u :: us => maxByCount parsed us u

/-- `valid_doses`: values of the majority unit, sorted ascending. -/
def validSorted (doses : List String) : List ℚ :=
  List.insertionSort (· ≤ ·)
    (((parsedDoses doses).filter
      (fun p => p.2 == mostCommonUnit (parsedDoses doses))).map Prod.fst)

/-- `count = len(valid_doses)`. -/
def doseCount (doses : List String) : Nat :=
  (validSorted doses).length

/-- Decimal digits of `r / d` for `0 < r < d` by long division (fuelled; a fuel
of `d` covers every terminating expansion, and only terminating expansions are
reachable from the dose parser, whose denominators divide a power of ten). -/
def decDigits (d : Nat) : Nat → Nat → List Char
  | _, 0 => []
  | 0, _ => []
  | fuel + 1, r => Char.ofNat (48 + (r * 10) / d) :: decDigits d fuel ((r * 10) % d)

/-- Python `str()` of a nonnegative float holding an exact decimal fraction. -/
def pyFloatRepr (q : ℚ) : String :=
  let n := q.num.toNat
  let d := q.den
  if n % d = 0 then toString (n / d) ++ ".0"
  else toString (n / d) ++ "." ++ (decDigits d d (n % d)).asString

/-- `fmt(start, end)` inside `analyze_doses`. -/
def fmtRange (unit : String) (a b : ℚ) : String :=
  if a = b then pyFloatRepr a ++ " " ++ unit
  else pyFloatRepr a ++ "-" ++ pyFloatRepr b ++ " " ++ unit

/-- The `_stats` payload. -/
structure DoseStats where
  total_reports : Nat
  distribution : List (String × Nat)
deriving Repr, DecidableEq

/-- The `ranges` record returned by `analyze_doses`. -/
structure DoseRanges where
  Threshold : String
  Light : String
  Common : String
  Strong : String
  Heavy : String
  Dangerous : String
  Fatal : String
  stats : DoseStats
deriving Repr, DecidableEq

/-- The `distribution` histogram: majority-unit values ascending with frequencies
(the Python code inserts values in sorted order and re-sorts the items). -/
def distributionOf (unit : String) (valid : List ℚ) : List (String × Nat) :=
  valid.dedup.map (fun v => (pyFloatRepr v ++ " " ++ unit, valid.count v))

/-- `int(count * pct)` for a nonnegative percentile constant `pct`:
the floor `⌊count · pct⌋`, computed on `pct`'s reduced numerator/denominator. -/
def pctIndex (count : Nat) (pct : ℚ) : Nat :=
  (count * pct.num.toNat) / pct.den

/-- `get_p(pct)`: `valid_doses[min(int(count * pct), count-1)]`. -/
def getP (doses : List String) (pct : ℚ) : ℚ :=
  let valid := validSorted doses
  let count := valid.length
  valid.getD (min (pctIndex count pct) (count - 1)) 0

/-- `analyze_doses(doses)`. -/
def analyze_doses (doses : List String) : Option DoseRanges :=
  let parsed := parsedDoses doses
  if parsed = [] then none
  else
    let unit := mostCommonUnit parsed
    let valid := validSorted doses
    let count := valid.length
    let stats : DoseStats := ⟨count, distributionOf unit valid⟩
    if count = 0 then none
    else if count = 1 then
      some ⟨"", "", pyFloatRepr (valid.headD 0) ++ " " ++ unit, "", "", "", "Unknown", stats⟩
    else if count < 5 then
      some ⟨"", "", fmtRange unit (valid.headD 0) (valid.getLastD 0), "", "", "", "Unknown", stats⟩
    else
      let p10 := getP doses (Rat.divInt 1 10)
      let p30 := getP doses (Rat.divInt 3 10)
      let p70 := getP doses (Rat.divInt 7 10)
      let p90 := getP doses (Rat.divInt 9 10)
      some ⟨if valid.headD 0 ≤ p10 then fmtRange unit (valid.headD 0) p10 else "",
            if p10 < p30 then fmtRange unit p10 p30 else "",
            if p30 ≤ p70 then fmtRange unit p30 p70 else "",
            if p70 < p90 then fmtRange unit p70 p90 else "",
            pyFloatRepr p90 ++ "+ " ++ unit,
            "", "Unknown", stats⟩

/-! ### The orchestrator (`main`): resume filter, merge and output ordering -/

/-- `normalize(name)`: `re.sub(r"[- ,]", "", name.lower())`. -/
def normalize (name : String) : String :=
  (((pyToLower name).toList).filter
    (fun c => !(c == '-' || c == ' ' || c == ','))).asString

/-- `urls_to_scrape = [u for u in all_report_urls if progress.get(u) != "done"]`. -/
def urls_to_scrape (allReportUrls : List String) (progress : List (String × String)) :
    List String :=
  allReportUrls.filter (fun u => !(List.lookup u progress == some "done"))

/-- One extracted dose item inside a stored report file; `none` fields model JSON
keys missing from the item (the merge loop checks all three are present). -/
structure DoseItem where
  substance : Option String
  method : Option String
  dose : Option String
deriving Repr, DecidableEq

/-- A parsed per-report temp file; `doses = none` models a missing or non-list
`doses` entry. A file that fails to read or parse at all is modelled as `none`
in the file list (the merge loop swallows the exception and skips it). -/
structure TempFile where
  doses : Option (List DoseItem)
deriving Repr, DecidableEq

/-- Append a dose under a `(substance, method)` key, preserving insertion order
(the nested `defaultdict` update `all_doses[sub][method].append(dose)`). -/
def addDose : List ((String × String) × List String) → String × String → String →
    List ((String × String) × List String)
  | [], k, d => [(k, [d])]
  | (k', ds) :: rest, k, d =>
    if k' = k then (k', ds ++ [d]) :: rest else (k', ds) :: addDose rest k d

/-- The doses recorded under a `(substance, method)` key (empty when absent). -/
def lookupDoses : List ((String × String) × List String) → String × String → List String
  | [], _ => []
  | (k', ds) :: rest, k => if k' = k then ds else lookupDoses rest k

/-- The merge inner loop's body, including the key-presence guard
`if 'substance' in item and 'method' in item and 'dose' in item`. -/
def mergeItemStep (acc : List ((String × String) × List String)) (it : DoseItem) :
    List ((String × String) × List String) :=
  match it.substance, it.method, it.dose with
  | some s, some m, some d => addDose acc (s, m) d
  | _, _, _ => acc

/-- Fold of one file's item list into the accumulator. -/
def mergeItems (acc : List ((String × String) × List String)) (items : List DoseItem) :
    List ((String × String) × List String) :=
  items.foldl mergeItemStep acc

/-- The merge outer loop's body: skip unreadable files and files without a
`doses` list. -/
def mergeFileStep (acc : List ((String × String) × List String)) (f : Option TempFile) :
    List ((String × String) × List String) :=
  match f with
  | none => acc
  | some tf =>
    match tf.doses with
    | none => acc
    | some items => mergeItems acc items

/-- `main`'s merge step: replay every temp file in the report store into
`all_doses`, with no reference to the progress ledger. -/
def mergeFiles (files : List (Option TempFile)) :
    List ((String × String) × List String) :=
  files.foldl mergeFileStep []

/-- Ordered-dict assignment `d[k] = v`: update in place, else append. -/
def odictInsert {α : Type} : List (String × α) → String → α → List (String × α)
  | [], k, v => [(k, v)]
  | (k', v') :: rest, k, v =>
    if k' = k then (k', v) :: rest else (k', v') :: odictInsert rest k v

/-- Dict lookup (keys are unique by construction in every dict modelled here). -/
def dictLookup {α : Type} : List (String × α) → String → Option α
  | [], _ => none
  | (k', v) :: rest, k => if k' = k then some v else dictLookup rest k

/-- `k in d`. -/
def dictContains {α : Type} (m : List (String × α)) (k : String) : Bool :=
  (dictLookup m k).isSome

/-- `normalized_data = {normalize(sub): data for sub, data in formatted_data.items()}`. -/
def buildNormalized {α : Type} (formatted : List (String × α)) : List (String × α) :=
  formatted.foldl (fun acc e => odictInsert acc (normalize e.1) e.2) []

/-- `drugs_lookup` as built by `load_drugs_json`: normalized pretty name →
pretty name, over the same pretty-name sequence as `drugs_order`. -/
def buildLookup (order : List String) : List (String × String) :=
  order.foldl (fun acc p => odictInsert acc (normalize p) p) []

/-- Step 8 of `main`: emit canonical-order matches first (keyed by pretty name),
then the remaining raw labels (keyed by raw label), including the dead
`drugs_lookup` re-check of the source. -/
def finalOutput {α : Type} (order : List String) (formatted : List (String × α)) :
    List (String × α) :=
  let firstPass := order.foldl (fun acc p =>
    match dictLookup (buildNormalized formatted) (normalize p) with
    | some v => odictInsert acc p v
    | none => acc) []
  formatted.foldl (fun acc e =>
    if (order.map normalize).contains (normalize e.1) then acc
    else
      match dictLookup (buildLookup order) (normalize e.1) with
      | some pname => if dictContains acc pname then acc else odictInsert acc pname e.2
      | none => odictInsert acc e.1 e.2) firstPass

/-! ### The dose extractor (`extract_doses_from_text`)

The source applies one regex with `re.findall`:
`(\d+(?:\.\d+)?)\s*(mg|g|ug|µg|ml|drops?|capsules?)\s*(oral|IM|…|subcutaneous)\s*([A-Za-z0-9,\-\s]+?)(?:\s*\(|$)`
under `re.IGNORECASE`. The embedding implements this specific pattern with the
engine's leftmost, alternation-order, greedy/lazy backtracking semantics. -/

/-- Case-insensitive prefix match of a pattern (stored lowercase) against text,
returning the matched text characters and the rest. -/
def ciStrip : List Char → List Char → Option (List Char × List Char)
  | [], cs => some ([], cs)
  | _ :: _, [] => none
  | p :: ps, c :: cs =>
    if p.toLower = c.toLower then
      (ciStrip ps cs).map (fun r => (c :: r.1, r.2))
    else none

/-- The unit alternation `mg|g|ug|µg|ml|drops?|capsules?`, expanded into the
candidates a backtracking engine tries in order (a greedy `s?` tries the longer
variant first). -/
def unitAlts : List String :=
  ["mg", "g", "ug", "µg", "ml", "drops", "drop", "capsules", "capsule"]

/-- The route alternation, in source order (duplicates included), lower-cased
for the case-insensitive comparison. -/
def methodAlts : List String :=
  ["oral", "im", "iv", "sc", "intranasal", "smoked", "insufflated", "rectal",
   "subcutaneous", "intravenous", "buccal", "sublingual", "intramuscular",
   "intravenous", "subcutaneous"]

/-- All alternatives matching at this position, in pattern order: the engine
commits to the first one whose continuation succeeds. -/
def altCandidates (alts : List String) (cs : List Char) : List (List Char × List Char) :=
  alts.filterMap (fun a => ciStrip a.toList cs)

/-- The substance class `[A-Za-z0-9,\-\s]`. -/
def isSubChar (c : Char) : Bool :=
  c.isAlpha || c.isDigit || c == ',' || c == '-' || isPySpace c

/-- `$` without `re.MULTILINE`: end of text, or just before a final newline. -/
def atEndAnchor (cs : List Char) : Bool :=
  cs.isEmpty || cs == ['\n']

/-- The terminator `(?:\s*\(|$)`: consume `\s*` then `(`, else match the
end anchor at the original position, consuming nothing. -/
def tryTerm (cs : List Char) : Option (List Char) :=
  match cs.dropWhile isPySpace with
  | '(' :: rest => some rest
  | _ => if atEndAnchor cs then some cs else none

/-- The lazy group `([A-Za-z0-9,\-\s]+?)` followed by the terminator: consume
the shortest non-empty class run after which the terminator matches, returning
(group, rest after the whole match). -/
def lazySub : List Char → List Char → Option (List Char × List Char)
  | _, [] => none
  | acc, c :: cs =>
    if isSubChar c then
      match tryTerm cs with
      | some rest => some (acc ++ [c], rest)
      | none => lazySub (acc ++ [c]) cs
    else none

/-- Backtracking for the greedy `\s*` before the substance group (whose class
also matches `\s`): try the longest whitespace run first, then shorter ones. -/
def tryDrops : Nat → List Char → Option (List Char × List Char)
  | 0, cs => lazySub [] cs
  | k + 1, cs =>
    match lazySub [] (cs.drop (k + 1)) with
    | some r => some r
    | none => tryDrops k cs

/-- `\s*` plus lazy substance group plus terminator. -/
def subWithWs (cs : List Char) : Option (List Char × List Char) :=
  tryDrops (cs.takeWhile isPySpace).length cs

/-- The number group `(\d+(?:\.\d+)?)` as matched text. -/
def numToken (cs : List Char) : Option (List Char × List Char) :=
  match numSpan cs with
  | none => none
  | some ((ip, none), rest) => some (ip, rest)
  | some ((ip, some fp), rest) => some (ip ++ '.' :: fp, rest)

/-- One record produced by the extractor
(`{'substance': …, 'dose': …, 'method': …}`). -/
structure RawDoseRecord where
  substance : String
  dose : String
  method : String
deriving Repr, DecidableEq

/-- One anchored attempt of the dose regex: on success, the four capture groups
(amount, unit, route, substance) and the rest of the text after the match. -/
def matchDose (cs : List Char) :
    Option ((List Char × List Char × List Char × List Char) × List Char) :=
  match numToken cs with
  | none => none
  | some (amt, r1) =>
    (altCandidates unitAlts (r1.dropWhile isPySpace)).findSome? (fun uc =>
      (altCandidates methodAlts (uc.2.dropWhile isPySpace)).findSome? (fun mc =>
        match subWithWs mc.2 with
        | some (sub, rest) => some ((amt, uc.1, mc.1, sub), rest)
        | none => none))

/-- `re.findall`: scan left to right, collecting non-overlapping matches
(fuelled by the text length; every step consumes at least one character). -/
def findallDoses : Nat → List Char → List (List Char × List Char × List Char × List Char)
  | 0, _ => []
  | _ + 1, [] => []
  | fuel + 1, c :: cs =>
    match matchDose (c :: cs) with
    | some (g, rest) => g :: findallDoses fuel rest
    | none => findallDoses fuel cs

/-- `\w` over the characters reachable here (ASCII). -/
def isWordChar (c : Char) : Bool :=
  c.isAlpha || c.isDigit || c == '_'

/-- Char-by-char whitespace-run collapse; the flag records whether the previous
character was whitespace (in which case further whitespace is dropped). -/
def collapseWsAux : Bool → List Char → List Char
  | _, [] => []
  | prevWs, c :: cs =>
    if isPySpace c then
      if prevWs then collapseWsAux true cs
      else ' ' :: collapseWsAux true cs
    else c :: collapseWsAux false cs

/-- `re.sub(r'\s+', ' ', s)`: replace each maximal whitespace run by one space. -/
def collapseWs (l : List Char) : List Char :=
  collapseWsAux false l

/-- The extractor's substance cleanup: strip, collapse whitespace runs, strip
characters outside `\w`, `\s`, comma and hyphen. -/
def cleanSubstance (cs : List Char) : String :=
  ((collapseWs ((pyStrip cs.asString).toList)).filter
    (fun c => isWordChar c || isPySpace c || c == ',' || c == '-')).asString

/-- `extract_doses_from_text(text)`. -/
def extract_doses_from_text (text : String) : List RawDoseRecord :=
  (findallDoses text.length text.toList).map (fun g =>
    { substance := cleanSubstance g.2.2.2
      dose := g.1.asString ++ " " ++ g.2.1.asString
      method := (g.2.2.1.map Char.toLower).asString })

/-! ### The progress ledger (`load_progress`) -/

/-- JSON whitespace skipping. -/
def jsonWs (cs : List Char) : List Char :=
  cs.dropWhile (fun c => c == ' ' || c == '\n' || c == '\t' || c == '\r')

/-- The simple JSON escapes. `\uXXXX` is not modelled: the ledger holds ASCII
URLs and status words, which `json.dump` never escapes that way. -/
def escChar (c : Char) : Option Char :=
  if c = '"' ∨ c = '\\' ∨ c = '/' then some c
  else if c = 'n' then some '\n'
  else if c = 't' then some '\t'
  else if c = 'r' then some '\r'
  else if c = 'b' then some '\x08'
  else if c = 'f' then some '\x0c'
  else none

/-- A JSON string body after the opening quote: content plus the rest after the
closing quote. Raw control characters are rejected (`json.load` strict mode). -/
def parseJString : List Char → Option (List Char × List Char)
  | [] => none
  | c :: rest =>
    if c = '"' then some ([], rest)
    else if c = '\\' then
      match rest with
      | [] => none
      | e :: rest2 =>
        match escChar e with
        | none => none
        | some d => (parseJString rest2).map (fun r => (d :: r.1, r.2))
    else if c.toNat < 32 then none
    else (parseJString rest).map (fun r => (c :: r.1, r.2))

/-- `"key": "value"` pairs separated by commas and terminated by a closing
brace; the fuel bounds the number of pairs. -/
def parsePairs : Nat → List Char → Option (List (String × String) × List Char)
  | 0, _ => none
  | fuel + 1, cs =>
    match jsonWs cs with
    | [] => none
    | c1 :: cs1 =>
      if c1 = '"' then
        match parseJString cs1 with
        | none => none
        | some (k, cs2) =>
          match jsonWs cs2 with
          | [] => none
          | c3 :: cs3 =>
            if c3 = ':' then
              match jsonWs cs3 with
              | [] => none
              | c4 :: cs4 =>
                if c4 = '"' then
                  match parseJString cs4 with
                  | none => none
                  | some (v, cs5) =>
                    match jsonWs cs5 with
                    | [] => none
                    | c6 :: cs6 =>
                      if c6 = ',' then
                        match parsePairs fuel cs6 with
                        | none => none
                        | some (ps, rest) => some ((k.asString, v.asString) :: ps, rest)
                      else if c6 = '\x7d' then some ([(k.asString, v.asString)], cs6)
                      else none
                else none
            else none
      else none

/-- `json.load` specialised to the ledger's value space: a flat JSON object
with string keys and string values — the only shape `update_progress` ever
writes. Malformed input yields `none` (the `JSONDecodeError` path). -/
def parseProgressJson (s : String) : Option (List (String × String)) :=
  match jsonWs s.toList with
  | [] => none
  | c0 :: cs1 =>
    if c0 = '\x7b' then
      match jsonWs cs1 with
      | [] => none
      | c1 :: cs2 =>
        if c1 = '\x7d' then (if jsonWs cs2 = [] then some [] else none)
        else
          match parsePairs (cs1.length + 1) cs1 with
          | none => none
          | some (m, rest) => if jsonWs rest = [] then some m else none
    else none

/-- One `"key": "value"` line at indent 1 (no escaping needed for the ledger's
ASCII URL/status strings). -/
def dumpPair (e : String × String) : String :=
  " \"" ++ e.1 ++ "\": \"" ++ e.2 ++ "\""

def joinStrings (sep : String) : List String → String
  | [] => ""
  | [x] => x
  | x :: y :: rest => x ++ sep ++ joinStrings sep (y :: rest)

/-- `json.dump(data, f, indent=1)` for a flat string map. -/
def dumpProgress (m : List (String × String)) : String :=
  match m with
  | [] => "\x7b\x7d"
  | _ => "\x7b\n" ++ joinStrings ",\n" (m.map dumpPair) ++ "\n\x7d"

/-- A string needing no JSON escaping (true of every ledger key and status). -/
def jsonPlain (s : String) : Prop :=
  ∀ c ∈ s.toList, c ≠ '"' ∧ c ≠ '\\' ∧ 32 ≤ c.toNat

instance (s : String) : Decidable (jsonPlain s) := by
  unfold jsonPlain
  infer_instance

/-- `load_progress()`: missing file (`none`) yields the empty mapping, and a
decode failure is caught and also yields the empty mapping. -/
def load_progress (file : Option String) : List (String × String) :=
  match file with
  | none => []
  | some s => (parseProgressJson s).getD []

/-! ### Helper lemmas about the aggregation engine -/

theorem validSorted_sorted (doses : List String) :
    List.Sorted (· ≤ ·) (validSorted doses) :=
  List.sorted_insertionSort _ _

theorem sorted_getD_mono {l : List ℚ} (hs : List.Sorted (· ≤ ·) l) {i j : Nat}
    (hij : i ≤ j) (hj : j < l.length) : l.getD i 0 ≤ l.getD j 0 := by
  have hi : i < l.length := lt_of_le_of_lt hij hj
  rw [List.getD_eq_getElem l 0 hi, List.getD_eq_getElem l 0 hj]
  rcases eq_or_lt_of_le hij with rfl | hlt
  · exact le_refl _
  · have := List.pairwise_iff_get.mp hs ⟨i, hi⟩ ⟨j, hj⟩ hlt
    simpa using this

/-- The fold building `unit_counts`' key list only produces units occurring in `parsed`. -/
theorem unitsFold_subset (l : List (ℚ × String)) :
    ∀ (acc : List String) (u : String),
      u ∈ l.foldl (fun acc p => if p.2 ∈ acc then acc else acc ++ [p.2]) acc →
      u ∈ acc ∨ ∃ p ∈ l, p.2 = u := by
  induction l with
  | nil => intro acc u h; exact Or.inl h
  | cons a t ih =>
    intro acc u h
    rcases ih _ u h with h' | ⟨p, hp, he⟩
    · dsimp only at h'
      by_cases ha : a.2 ∈ acc
      · rw [if_pos ha] at h'; exact Or.inl h'
      · rw [if_neg ha] at h'
        rcases List.mem_append.mp h' with h'' | h''
        · exact Or.inl h''
        · exact Or.inr ⟨a, List.mem_cons_self a t, (List.mem_singleton.mp h'').symm⟩
    · exact Or.inr ⟨p, List.mem_cons_of_mem a hp, he⟩

theorem unitsFold_mono (l : List (ℚ × String)) :
    ∀ (acc : List String) (u : String), u ∈ acc →
      u ∈ l.foldl (fun acc p => if p.2 ∈ acc then acc else acc ++ [p.2]) acc := by
  induction l with
  | nil => intro acc u h; exact h
  | cons a t ih =>
    intro acc u h
    refine ih _ u ?_
    dsimp only
    by_cases ha : a.2 ∈ acc
    · rwa [if_pos ha]
    · rw [if_neg ha]; exact List.mem_append_left _ h

theorem unitsFold_covers (l : List (ℚ × String)) :
    ∀ (acc : List String) (p : ℚ × String), p ∈ l →
      p.2 ∈ l.foldl (fun acc p => if p.2 ∈ acc then acc else acc ++ [p.2]) acc := by
  induction l with
  | nil => intro _ _ h; exact absurd h (List.not_mem_nil _)
  | cons a t ih =>
    intro acc p hp
    rcases List.mem_cons.mp hp with rfl | hp'
    · refine unitsFold_mono t _ p.2 ?_
      dsimp only
      by_cases ha : p.2 ∈ acc
      · rwa [if_pos ha]
      · rw [if_neg ha]; exact List.mem_append_right _ (List.mem_singleton.mpr rfl)
    · exact ih _ p hp'

theorem mem_of_mem_unitsInOrder {parsed : List (ℚ × String)} {u : String}
    (h : u ∈ unitsInOrder parsed) : ∃ p ∈ parsed, p.2 = u := by
  rcases unitsFold_subset parsed [] u h with h' | h'
  · exact absurd h' (List.not_mem_nil u)
  · exact h'

theorem snd_mem_unitsInOrder {parsed : List (ℚ × String)} {p : ℚ × String}
    (h : p ∈ parsed) : p.2 ∈ unitsInOrder parsed :=
  unitsFold_covers parsed [] p h

theorem maxByCount_mem (parsed : List (ℚ × String)) :
    ∀ (l : List String) (best : String), maxByCount parsed l best ∈ best :: l := by
  intro l
  induction l with
  | nil => intro best; simp [maxByCount]
  | cons u us ih =>
    intro best
    have heq : maxByCount parsed (u :: us) best =
        maxByCount parsed us (if unitCount parsed u > unitCount parsed best then u else best) :=
      rfl
    rw [heq]
    have h := ih (if unitCount parsed u > unitCount parsed best then u else best)
    rcases List.mem_cons.mp h with h' | h'
    · rw [h']
      by_cases hc : unitCount parsed u > unitCount parsed best
      · rw [if_pos hc]; exact List.mem_cons_of_mem _ (List.mem_cons_self u us)
      · rw [if_neg hc]; exact List.mem_cons_self best (u :: us)
    · exact List.mem_cons_of_mem _ (List.mem_cons_of_mem _ h')

theorem maxByCount_ge (parsed : List (ℚ × String)) :
    ∀ (l : List String) (best : String),
      unitCount parsed best ≤ unitCount parsed (maxByCount parsed l best) ∧
      ∀ u ∈ l, unitCount parsed u ≤ unitCount parsed (maxByCount parsed l best) := by
  intro l
  induction l with
  | nil =>
    intro best
    exact ⟨le_refl _, fun u h => absurd h (List.not_mem_nil u)⟩
  | cons u us ih =>
    intro best
    obtain ⟨h1, h2⟩ := ih (if unitCount parsed u > unitCount parsed best then u else best)
    constructor
    · refine le_trans ?_ ((by simp [maxByCount] : maxByCount parsed (u :: us) best =
        maxByCount parsed us (if unitCount parsed u > unitCount parsed best then u else best)) ▸ h1)
      by_cases hc : unitCount parsed u > unitCount parsed best
      · rw [if_pos hc]; exact le_of_lt hc
      · rw [if_neg hc]
    · intro v hv
      have heq : maxByCount parsed (u :: us) best =
          maxByCount parsed us (if unitCount parsed u > unitCount parsed best then u else best) := by
        simp [maxByCount]
      rcases List.mem_cons.mp hv with rfl | hv'
      · rw [heq]
        refine le_trans ?_ h1
        by_cases hc : unitCount parsed v > unitCount parsed best
        · rw [if_pos hc]
        · rw [if_neg hc]; exact le_of_not_lt hc
      · rw [heq]; exact h2 v hv'

/-- The selected unit maximises `unit_counts` over every unit. -/
theorem unitCount_le_mostCommonUnit (parsed : List (ℚ × String)) (u : String) :
    unitCount parsed u ≤ unitCount parsed (mostCommonUnit parsed) := by
  by_cases hu : u ∈ unitsInOrder parsed
  · rcases h : unitsInOrder parsed with _ | ⟨v, vs⟩
    · rw [h] at hu; exact absurd hu (List.not_mem_nil u)
    · rw [h] at hu
      obtain ⟨h1, h2⟩ := maxByCount_ge parsed vs v
      simp only [mostCommonUnit, h]
      rcases List.mem_cons.mp hu with rfl | hu'
      · exact h1
      · exact h2 u hu'
  · have : unitCount parsed u = 0 := by
      rw [unitCount, List.length_eq_zero, List.filter_eq_nil_iff]
      intro p hp
      simp only [beq_iff_eq]
      intro he
      exact hu (he ▸ snd_mem_unitsInOrder hp)
    rw [this]
    exact Nat.zero_le _

/-- Some parsed sample carries the selected unit. -/
theorem mostCommonUnit_mem {parsed : List (ℚ × String)} (h : parsed ≠ []) :
    ∃ p ∈ parsed, p.2 = mostCommonUnit parsed := by
  rcases hl : parsed with _ | ⟨a, t⟩
  · exact absurd hl h
  · have hmem : a.2 ∈ unitsInOrder (a :: t) := snd_mem_unitsInOrder (List.mem_cons_self a t)
    rcases hu : unitsInOrder (a :: t) with _ | ⟨v, vs⟩
    · rw [hu] at hmem; exact absurd hmem (List.not_mem_nil _)
    · have : mostCommonUnit (a :: t) ∈ v :: vs := by
        simpa only [mostCommonUnit, hu] using maxByCount_mem (a :: t) vs v
      have := mem_of_mem_unitsInOrder (hu ▸ this)
      exact this

theorem validSorted_ne_nil {doses : List String} (h : parsedDoses doses ≠ []) :
    validSorted doses ≠ [] := by
  obtain ⟨p, hp, he⟩ := mostCommonUnit_mem h
  intro h0
  have : p.1 ∈ validSorted doses := by
    rw [validSorted, List.mem_insertionSort]
    exact List.mem_map_of_mem Prod.fst (List.mem_filter.mpr ⟨hp, by simp [he]⟩)
  rw [h0] at this
  exact absurd this (List.not_mem_nil _)

theorem validSorted_eq_nil {doses : List String} (h : parsedDoses doses = []) :
    validSorted doses = [] := by
  simp [validSorted, h]

theorem doseCount_pos {doses : List String} (h : parsedDoses doses ≠ []) :
    0 < doseCount doses :=
  List.length_pos.mpr (validSorted_ne_nil h)

theorem doseCount_eq_unitCount (doses : List String) :
    doseCount doses =
      unitCount (parsedDoses doses) (mostCommonUnit (parsedDoses doses)) := by
  simp [doseCount, validSorted, unitCount, List.length_insertionSort]

theorem headD_eq_getD (l : List ℚ) : l.headD 0 = l.getD 0 0 := by
  cases l <;> rfl

theorem getLastD_eq_getD (l : List ℚ) (h : l ≠ []) :
    l.getLastD 0 = l.getD (l.length - 1) 0 := by
  have hl : l.length - 1 < l.length := by
    have := List.length_pos.mpr h
    omega
  rw [List.getLastD_eq_getLast?, List.getLast?_eq_getElem?, List.getD_eq_getElem l 0 hl]
  simp [List.getElem?_eq_getElem hl]

/-- Deduplicating a `≤`-sorted list yields a strictly increasing list. -/
theorem dedup_sorted_lt {l : List ℚ} (hs : List.Sorted (· ≤ ·) l) :
    List.Sorted (· < ·) l.dedup := by
  have hle : List.Sorted (· ≤ ·) l.dedup := List.Pairwise.sublist (List.dedup_sublist l) hs
  have hnd : l.dedup.Nodup := List.nodup_dedup l
  exact (hle.and hnd).imp (fun h => lt_of_le_of_ne h.1 h.2)

/-- Evaluation of `analyze_doses` when no string parses. -/
theorem analyze_doses_of_zero {doses : List String} (h0 : doseCount doses = 0) :
    analyze_doses doses = none := by
  by_cases hp : parsedDoses doses = []
  · simp [analyze_doses, hp]
  · exact absurd h0 (doseCount_pos hp).ne'

/-- Evaluation of `analyze_doses` on a single-sample group. -/
theorem analyze_doses_of_one {doses : List String} (h1 : doseCount doses = 1) :
    analyze_doses doses = some
      ⟨"", "",
       pyFloatRepr ((validSorted doses).headD 0) ++ " " ++ mostCommonUnit (parsedDoses doses),
       "", "", "", "Unknown",
       ⟨doseCount doses,
        distributionOf (mostCommonUnit (parsedDoses doses)) (validSorted doses)⟩⟩ := by
  have hpne : parsedDoses doses ≠ [] := by
    intro hp
    rw [doseCount, validSorted_eq_nil hp] at h1
    simp at h1
  have h1' : (validSorted doses).length = 1 := h1
  simp only [analyze_doses]
  rw [if_neg hpne, if_neg (by omega : ¬(validSorted doses).length = 0),
    if_pos h1']
  rfl

/-- Evaluation of `analyze_doses` on a 2-to-4-sample group. -/
theorem analyze_doses_of_small {doses : List String} (h2 : 2 ≤ doseCount doses)
    (h4 : doseCount doses ≤ 4) :
    analyze_doses doses = some
      ⟨"", "",
       fmtRange (mostCommonUnit (parsedDoses doses)) ((validSorted doses).headD 0)
         ((validSorted doses).getLastD 0),
       "", "", "", "Unknown",
       ⟨doseCount doses,
        distributionOf (mostCommonUnit (parsedDoses doses)) (validSorted doses)⟩⟩ := by
  have hpne : parsedDoses doses ≠ [] := by
    intro hp
    rw [doseCount, validSorted_eq_nil hp] at h2
    simp at h2
  have h2' : 2 ≤ (validSorted doses).length := h2
  have h4' : (validSorted doses).length ≤ 4 := h4
  simp only [analyze_doses]
  rw [if_neg hpne, if_neg (by omega : ¬(validSorted doses).length = 0),
    if_neg (by omega : ¬(validSorted doses).length = 1),
    if_pos (by omega : (validSorted doses).length < 5)]
  rfl

/-- Evaluation of `analyze_doses` on a group of at least five samples. -/
theorem analyze_doses_of_ge_five {doses : List String} (h5 : 5 ≤ doseCount doses) :
    analyze_doses doses = some
      ⟨if (validSorted doses).headD 0 ≤ getP doses (Rat.divInt 1 10) then
          fmtRange (mostCommonUnit (parsedDoses doses)) ((validSorted doses).headD 0)
            (getP doses (Rat.divInt 1 10))
        else "",
       if getP doses (Rat.divInt 1 10) < getP doses (Rat.divInt 3 10) then
          fmtRange (mostCommonUnit (parsedDoses doses)) (getP doses (Rat.divInt 1 10))
            (getP doses (Rat.divInt 3 10))
        else "",
       if getP doses (Rat.divInt 3 10) ≤ getP doses (Rat.divInt 7 10) then
          fmtRange (mostCommonUnit (parsedDoses doses)) (getP doses (Rat.divInt 3 10))
            (getP doses (Rat.divInt 7 10))
        else "",
       if getP doses (Rat.divInt 7 10) < getP doses (Rat.divInt 9 10) then
          fmtRange (mostCommonUnit (parsedDoses doses)) (getP doses (Rat.divInt 7 10))
            (getP doses (Rat.divInt 9 10))
        else "",
       pyFloatRepr (getP doses (Rat.divInt 9 10)) ++ "+ " ++ mostCommonUnit (parsedDoses doses),
       "", "Unknown",
       ⟨doseCount doses,
        distributionOf (mostCommonUnit (parsedDoses doses)) (validSorted doses)⟩⟩ := by
  have hpne : parsedDoses doses ≠ [] := by
    intro hp
    rw [doseCount, validSorted_eq_nil hp] at h5
    simp at h5
  have h5' : 5 ≤ (validSorted doses).length := h5
  simp only [analyze_doses]
  rw [if_neg hpne, if_neg (by omega : ¬(validSorted doses).length = 0),
    if_neg (by omega : ¬(validSorted doses).length = 1),
    if_neg (by omega : ¬(validSorted doses).length < 5)]
  rfl

/-- Shared evaluation of `analyze_doses` on the spec's end-to-end sample. -/
theorem analyze_demo_eval :
    analyze_doses ["80 mg", "100 mg", "120 mg", "150 mg", "200 mg", "300 mg"] =
      some ⟨"80.0 mg", "80.0-100.0 mg", "100.0-200.0 mg", "200.0-300.0 mg", "300.0+ mg",
            "", "Unknown",
            ⟨6, [("80.0 mg", 1), ("100.0 mg", 1), ("120.0 mg", 1), ("150.0 mg", 1),
                 ("200.0 mg", 1), ("300.0 mg", 1)]⟩⟩ := by
  decide

/-- **C1, counterexample.** On `["80 mg",…,"300 mg"]` the claimed band record
(Threshold `"80 mg"`, Light `"100 mg"`, Common `"100-200 mg"`, Strong
`"200-300 mg"`, Heavy `"300+ mg"`) is not what `analyze_doses` returns: the code
formats floats (`"80.0 mg"`) and starts the Light band at p10. -/
theorem end_to_end_bands_claim_false :
    ¬ ∃ r : DoseRanges,
      analyze_doses ["80 mg", "100 mg", "120 mg", "150 mg", "200 mg", "300 mg"] = some r ∧
      r.Threshold = "80 mg" ∧ r.Light = "100 mg" ∧ r.Common = "100-200 mg" ∧
      r.Strong = "200-300 mg" ∧ r.Heavy = "300+ mg" := by
  rintro ⟨r, hr, hT, -⟩
  rw [analyze_demo_eval] at hr
  cases hr
  exact absurd hT (by decide)

/-- **C1, amended.** For `["80 mg","100 mg","120 mg","150 mg","200 mg","300 mg"]`,
`analyze_doses` returns Threshold `"80.0 mg"`, Light `"80.0-100.0 mg"` (the band
runs from p10 to p30), Common `"100.0-200.0 mg"`, Strong `"200.0-300.0 mg"` and
Heavy `"300.0+ mg"`. -/
theorem end_to_end_bands_amended :
    analyze_doses ["80 mg", "100 mg", "120 mg", "150 mg", "200 mg", "300 mg"] =
      some ⟨"80.0 mg", "80.0-100.0 mg", "100.0-200.0 mg", "200.0-300.0 mg", "300.0+ mg",
            "", "Unknown",
            ⟨6, [("80.0 mg", 1), ("100.0 mg", 1), ("120.0 mg", 1), ("150.0 mg", 1),
                 ("200.0 mg", 1), ("300.0 mg", 1)]⟩⟩ :=
  analyze_demo_eval

/-- **C7.** Every band record `analyze_doses` returns has `Fatal = "Unknown"` and
`Dangerous = ""`; no code path assigns either field anything else. -/
theorem fatal_unknown_dangerous_empty (doses : List String) (r : DoseRanges)
    (h : analyze_doses doses = some r) : r.Fatal = "Unknown" ∧ r.Dangerous = "" := by
  simp only [analyze_doses] at h
  split_ifs at h <;>
    first
      | exact Option.noConfusion h
      | (injection h with h; subst h; exact ⟨rfl, rfl⟩)

/-- Witness for C7 at the input `["5 mg"]`. -/
theorem fatal_unknown_dangerous_empty_witness :
    DoseRanges.Fatal ⟨"", "", "5.0 mg", "", "", "", "Unknown", ⟨1, [("5.0 mg", 1)]⟩⟩ =
      "Unknown" ∧
    DoseRanges.Dangerous ⟨"", "", "5.0 mg", "", "", "", "Unknown", ⟨1, [("5.0 mg", 1)]⟩⟩ =
      "" :=
  fatal_unknown_dangerous_empty ["5 mg"]
    ⟨"", "", "5.0 mg", "", "", "", "Unknown", ⟨1, [("5.0 mg", 1)]⟩⟩ (by decide)

/-- **C2.** For every dose list whose majority-unit sample count is at least 5,
the index-based percentiles satisfy `min ≤ p10 ≤ p30 ≤ p70 ≤ p90 ≤ max` on the
sorted values, and `analyze_doses` always sets Heavy to `"{p90}+ {unit}"`. -/
theorem quantile_monotone_heavy (doses : List String) (h5 : 5 ≤ doseCount doses) :
    (validSorted doses).headD 0 ≤ getP doses (Rat.divInt 1 10) ∧
    getP doses (Rat.divInt 1 10) ≤ getP doses (Rat.divInt 3 10) ∧
    getP doses (Rat.divInt 3 10) ≤ getP doses (Rat.divInt 7 10) ∧
    getP doses (Rat.divInt 7 10) ≤ getP doses (Rat.divInt 9 10) ∧
    getP doses (Rat.divInt 9 10) ≤ (validSorted doses).getLastD 0 ∧
    ∃ r, analyze_doses doses = some r ∧
      r.Heavy = pyFloatRepr (getP doses (Rat.divInt 9 10)) ++ "+ " ++
        mostCommonUnit (parsedDoses doses) := by
  have hs := validSorted_sorted doses
  have hlen : 5 ≤ (validSorted doses).length := h5
  have hne : validSorted doses ≠ [] := by
    intro h0; rw [h0] at hlen; simp at hlen
  have e : ∀ p : ℚ, getP doses p =
      (validSorted doses).getD
        (min ((validSorted doses).length * p.num.toNat / p.den)
          ((validSorted doses).length - 1)) 0 := by
    intro p; simp only [getP, pctIndex]
  have n1 : (Rat.divInt 1 10).num.toNat = 1 := by decide
  have d1 : (Rat.divInt 1 10).den = 10 := by decide
  have n3 : (Rat.divInt 3 10).num.toNat = 3 := by decide
  have d3 : (Rat.divInt 3 10).den = 10 := by decide
  have n7 : (Rat.divInt 7 10).num.toNat = 7 := by decide
  have d7 : (Rat.divInt 7 10).den = 10 := by decide
  have n9 : (Rat.divInt 9 10).num.toNat = 9 := by decide
  have d9 : (Rat.divInt 9 10).den = 10 := by decide
  refine ⟨?_, ?_, ?_, ?_, ?_, ⟨_, analyze_doses_of_ge_five h5, rfl⟩⟩
  · rw [headD_eq_getD, e, n1, d1]
    exact sorted_getD_mono hs (Nat.zero_le _) (by omega)
  · rw [e, e, n1, d1, n3, d3]
    exact sorted_getD_mono hs (by omega) (by omega)
  · rw [e, e, n3, d3, n7, d7]
    exact sorted_getD_mono hs (by omega) (by omega)
  · rw [e, e, n7, d7, n9, d9]
    exact sorted_getD_mono hs (by omega) (by omega)
  · rw [e, n9, d9, getLastD_eq_getD _ hne]
    exact sorted_getD_mono hs (by omega) (by omega)

/-- Witness for C2 at the spec's six-sample input. -/
theorem quantile_monotone_heavy_witness :
    5 ≤ doseCount ["80 mg", "100 mg", "120 mg", "150 mg", "200 mg", "300 mg"] ∧
    ((validSorted ["80 mg", "100 mg", "120 mg", "150 mg", "200 mg", "300 mg"]).headD 0 ≤
        getP ["80 mg", "100 mg", "120 mg", "150 mg", "200 mg", "300 mg"] (Rat.divInt 1 10) ∧
      getP ["80 mg", "100 mg", "120 mg", "150 mg", "200 mg", "300 mg"] (Rat.divInt 1 10) ≤
        getP ["80 mg", "100 mg", "120 mg", "150 mg", "200 mg", "300 mg"] (Rat.divInt 3 10) ∧
      getP ["80 mg", "100 mg", "120 mg", "150 mg", "200 mg", "300 mg"] (Rat.divInt 3 10) ≤
        getP ["80 mg", "100 mg", "120 mg", "150 mg", "200 mg", "300 mg"] (Rat.divInt 7 10) ∧
      getP ["80 mg", "100 mg", "120 mg", "150 mg", "200 mg", "300 mg"] (Rat.divInt 7 10) ≤
        getP ["80 mg", "100 mg", "120 mg", "150 mg", "200 mg", "300 mg"] (Rat.divInt 9 10) ∧
      getP ["80 mg", "100 mg", "120 mg", "150 mg", "200 mg", "300 mg"] (Rat.divInt 9 10) ≤
        (validSorted ["80 mg", "100 mg", "120 mg", "150 mg", "200 mg", "300 mg"]).getLastD 0 ∧
      ∃ r, analyze_doses ["80 mg", "100 mg", "120 mg", "150 mg", "200 mg", "300 mg"] = some r ∧
        r.Heavy = pyFloatRepr
            (getP ["80 mg", "100 mg", "120 mg", "150 mg", "200 mg", "300 mg"]
              (Rat.divInt 9 10)) ++ "+ " ++
          mostCommonUnit
            (parsedDoses ["80 mg", "100 mg", "120 mg", "150 mg", "200 mg", "300 mg"])) :=
  ⟨by decide,
   quantile_monotone_heavy ["80 mg", "100 mg", "120 mg", "150 mg", "200 mg", "300 mg"]
     (by decide)⟩

/-- **C3.** Small-sample fallback: with 2-4 majority-unit samples only `Common`
is populated, as `min`-`max` (collapsed when equal); with exactly one sample
`Common` is that single value; with zero parsable samples `analyze_doses`
returns no record at all. -/
theorem small_sample_fallback (doses : List String) :
    (doseCount doses = 0 → analyze_doses doses = none) ∧
    (doseCount doses = 1 → analyze_doses doses = some
      ⟨"", "",
       pyFloatRepr ((validSorted doses).headD 0) ++ " " ++ mostCommonUnit (parsedDoses doses),
       "", "", "", "Unknown",
       ⟨doseCount doses,
        distributionOf (mostCommonUnit (parsedDoses doses)) (validSorted doses)⟩⟩) ∧
    (2 ≤ doseCount doses → doseCount doses ≤ 4 → analyze_doses doses = some
      ⟨"", "",
       fmtRange (mostCommonUnit (parsedDoses doses)) ((validSorted doses).headD 0)
         ((validSorted doses).getLastD 0),
       "", "", "", "Unknown",
       ⟨doseCount doses,
        distributionOf (mostCommonUnit (parsedDoses doses)) (validSorted doses)⟩⟩) :=
  ⟨fun h0 => analyze_doses_of_zero h0,
   fun h1 => analyze_doses_of_one h1,
   fun h2 h4 => analyze_doses_of_small h2 h4⟩

/-- Witness for C3 at inputs of sample count 0, 1 and 2. -/
theorem small_sample_fallback_witness :
    analyze_doses ["nonsense"] = none ∧
    analyze_doses ["7 mg"] =
      some ⟨"", "", "7.0 mg", "", "", "", "Unknown", ⟨1, [("7.0 mg", 1)]⟩⟩ ∧
    analyze_doses ["2 mg", "4 mg"] =
      some ⟨"", "", "2.0-4.0 mg", "", "", "", "Unknown",
        ⟨2, [("2.0 mg", 1), ("4.0 mg", 1)]⟩⟩ := by
  refine ⟨(small_sample_fallback ["nonsense"]).1 (by decide), ?_, ?_⟩
  · have h := (small_sample_fallback ["7 mg"]).2.1 (by decide)
    rw [h]; decide
  · have h := (small_sample_fallback ["2 mg", "4 mg"]).2.2 (by decide) (by decide)
    rw [h]; decide

/-- **C4.** `analyze_doses` keeps only the single most frequent unit: that unit's
count dominates every unit's count, `_stats.total_reports` equals the number of
majority-unit samples alone, and the distribution histogram is keyed by the
majority-unit values in strictly ascending order. -/
theorem unit_isolation (doses : List String) (hne : parsedDoses doses ≠ []) :
    (∀ u, unitCount (parsedDoses doses) u ≤
      unitCount (parsedDoses doses) (mostCommonUnit (parsedDoses doses))) ∧
    List.Sorted (· < ·) (validSorted doses).dedup ∧
    ∃ r, analyze_doses doses = some r ∧
      r.stats.total_reports =
        unitCount (parsedDoses doses) (mostCommonUnit (parsedDoses doses)) ∧
      r.stats.distribution =
        distributionOf (mostCommonUnit (parsedDoses doses)) (validSorted doses) := by
  refine ⟨fun u => unitCount_le_mostCommonUnit _ u,
    dedup_sorted_lt (validSorted_sorted doses), ?_⟩
  have hpos := doseCount_pos hne
  by_cases h1 : doseCount doses = 1
  · exact ⟨_, analyze_doses_of_one h1, doseCount_eq_unitCount doses, rfl⟩
  · by_cases h5 : doseCount doses < 5
    · exact ⟨_, analyze_doses_of_small (by omega) (by omega),
        doseCount_eq_unitCount doses, rfl⟩
    · exact ⟨_, analyze_doses_of_ge_five (by omega), doseCount_eq_unitCount doses, rfl⟩

/-- Witness for C4 at the spec's mixed-unit input (4 "mg" samples, 2 "g" samples):
total_reports counts the majority unit only. -/
theorem unit_isolation_witness :
    parsedDoses ["1 mg", "2 mg", "3 mg", "4 mg", "1 g", "2 g"] ≠ [] ∧
    ((∀ u, unitCount (parsedDoses ["1 mg", "2 mg", "3 mg", "4 mg", "1 g", "2 g"]) u ≤
        unitCount (parsedDoses ["1 mg", "2 mg", "3 mg", "4 mg", "1 g", "2 g"])
          (mostCommonUnit (parsedDoses ["1 mg", "2 mg", "3 mg", "4 mg", "1 g", "2 g"]))) ∧
      List.Sorted (· < ·) (validSorted ["1 mg", "2 mg", "3 mg", "4 mg", "1 g", "2 g"]).dedup ∧
      ∃ r, analyze_doses ["1 mg", "2 mg", "3 mg", "4 mg", "1 g", "2 g"] = some r ∧
        r.stats.total_reports =
          unitCount (parsedDoses ["1 mg", "2 mg", "3 mg", "4 mg", "1 g", "2 g"])
            (mostCommonUnit (parsedDoses ["1 mg", "2 mg", "3 mg", "4 mg", "1 g", "2 g"])) ∧
        r.stats.distribution =
          distributionOf (mostCommonUnit (parsedDoses ["1 mg", "2 mg", "3 mg", "4 mg", "1 g", "2 g"]))
            (validSorted ["1 mg", "2 mg", "3 mg", "4 mg", "1 g", "2 g"])) ∧
    (analyze_doses ["1 mg", "2 mg", "3 mg", "4 mg", "1 g", "2 g"]).map
      (fun r => r.stats.total_reports) = some 4 :=
  ⟨by decide, unit_isolation ["1 mg", "2 mg", "3 mg", "4 mg", "1 g", "2 g"] (by decide),
   by decide⟩

/-! ### Merge-replay lemmas for the resume claim -/

theorem lookupDoses_addDose_self (acc : List ((String × String) × List String))
    (k : String × String) (d : String) : d ∈ lookupDoses (addDose acc k d) k := by
  induction acc with
  | nil => simp [addDose, lookupDoses]
  | cons e rest ih =>
    obtain ⟨k', ds⟩ := e
    by_cases h : k' = k
    · simp [addDose, h, lookupDoses]
    · simp [addDose, h, lookupDoses, ih]

theorem lookupDoses_addDose_mono {acc : List ((String × String) × List String)}
    {k : String × String} {d : String} (k' : String × String) (d' : String)
    (h : d ∈ lookupDoses acc k) : d ∈ lookupDoses (addDose acc k' d') k := by
  induction acc with
  | nil => simp [lookupDoses] at h
  | cons e rest ih =>
    obtain ⟨k₀, ds⟩ := e
    simp only [addDose]
    by_cases h0 : k₀ = k'
    · rw [if_pos h0]
      by_cases h1 : k₀ = k
      · simp only [lookupDoses, if_pos h1] at h ⊢
        exact List.mem_append_left _ h
      · simp only [lookupDoses, if_neg h1] at h ⊢
        exact h
    · rw [if_neg h0]
      by_cases h1 : k₀ = k
      · simp only [lookupDoses, if_pos h1] at h ⊢
        exact h
      · simp only [lookupDoses, if_neg h1] at h ⊢
        exact ih h

theorem lookupDoses_mergeItemStep_mono {acc : List ((String × String) × List String)}
    {k : String × String} {d : String} (it : DoseItem)
    (h : d ∈ lookupDoses acc k) : d ∈ lookupDoses (mergeItemStep acc it) k := by
  obtain ⟨s, m, ds⟩ := it
  cases s <;> cases m <;> cases ds <;>
    simp only [mergeItemStep] <;>
    first
      | exact h
      | exact lookupDoses_addDose_mono _ _ h

theorem lookupDoses_mergeItems_mono {k : String × String} {d : String}
    (items : List DoseItem) :
    ∀ acc : List ((String × String) × List String),
      d ∈ lookupDoses acc k → d ∈ lookupDoses (mergeItems acc items) k := by
  induction items with
  | nil => intro acc h; exact h
  | cons it rest ih =>
    intro acc h
    exact ih _ (lookupDoses_mergeItemStep_mono it h)

theorem lookupDoses_mergeItems_adds {items : List DoseItem} {s m d : String}
    (h : (⟨some s, some m, some d⟩ : DoseItem) ∈ items) :
    ∀ acc : List ((String × String) × List String),
      d ∈ lookupDoses (mergeItems acc items) (s, m) := by
  induction items with
  | nil => exact absurd h (List.not_mem_nil _)
  | cons it rest ih =>
    intro acc
    rcases List.mem_cons.mp h with rfl | h'
    · exact lookupDoses_mergeItems_mono rest _
        (lookupDoses_addDose_self acc (s, m) d)
    · exact ih h' _

theorem lookupDoses_mergeFileStep_mono {acc : List ((String × String) × List String)}
    {k : String × String} {d : String} (f : Option TempFile)
    (h : d ∈ lookupDoses acc k) : d ∈ lookupDoses (mergeFileStep acc f) k := by
  cases f with
  | none => exact h
  | some tf =>
    cases htf : tf.doses with
    | none => simpa [mergeFileStep, htf] using h
    | some items =>
      simp only [mergeFileStep, htf]
      exact lookupDoses_mergeItems_mono items _ h

theorem lookupDoses_filesFold_mono {k : String × String} {d : String}
    (files : List (Option TempFile)) :
    ∀ acc : List ((String × String) × List String),
      d ∈ lookupDoses acc k → d ∈ lookupDoses (files.foldl mergeFileStep acc) k := by
  induction files with
  | nil => intro acc h; exact h
  | cons f rest ih =>
    intro acc h
    exact ih _ (lookupDoses_mergeFileStep_mono f h)

theorem lookupDoses_filesFold_adds {files : List (Option TempFile)} {tf : TempFile}
    {items : List DoseItem} {s m d : String} (hf : some tf ∈ files)
    (hdoses : tf.doses = some items)
    (hit : (⟨some s, some m, some d⟩ : DoseItem) ∈ items) :
    ∀ acc : List ((String × String) × List String),
      d ∈ lookupDoses (files.foldl mergeFileStep acc) (s, m) := by
  induction files with
  | nil => exact absurd hf (List.not_mem_nil _)
  | cons f rest ih =>
    intro acc
    rcases List.mem_cons.mp hf with rfl | h'
    · refine lookupDoses_filesFold_mono rest _ ?_
      simp only [mergeFileStep, hdoses]
      exact lookupDoses_mergeItems_adds hit acc
    · exact ih h' _

/-- **C5.** The resume mechanism: a URL the ledger marks `done` is never queued
for scraping, URLs that are absent or marked `failed`/`failed_blocked` are
queued, and every dose item of every readable stored report file reaches the
merged aggregate — the merge replays the whole report store with no reference
to the ledger. -/
theorem resume_filter_and_merge (allReportUrls : List String)
    (progress : List (String × String)) (u : String) (files : List (Option TempFile)) :
    (List.lookup u progress = some "done" → u ∉ urls_to_scrape allReportUrls progress) ∧
    (u ∈ allReportUrls →
      (List.lookup u progress = none ∨ List.lookup u progress = some "failed" ∨
        List.lookup u progress = some "failed_blocked") →
      u ∈ urls_to_scrape allReportUrls progress) ∧
    (∀ (tf : TempFile) (items : List DoseItem) (s m d : String),
      some tf ∈ files → tf.doses = some items →
      (⟨some s, some m, some d⟩ : DoseItem) ∈ items →
      d ∈ lookupDoses (mergeFiles files) (s, m)) := by
  refine ⟨?_, ?_, ?_⟩
  · intro hdone hmem
    have := (List.mem_filter.mp hmem).2
    rw [hdone] at this
    simp at this
  · intro hmem hst
    refine List.mem_filter.mpr ⟨hmem, ?_⟩
    rcases hst with h | h | h <;> simp [h]
  · intro tf items s m d hf hdoses hit
    exact lookupDoses_filesFold_adds hf hdoses hit []

/-- Witness for C5: a `done` URL is skipped, a `failed` and an unseen URL are
queued, and a stored record survives into the merged aggregate. -/
theorem resume_filter_and_merge_witness :
    ("u1" ∉ urls_to_scrape ["u1", "u2", "u3"] [("u1", "done"), ("u2", "failed")]) ∧
    ("u2" ∈ urls_to_scrape ["u1", "u2", "u3"] [("u1", "done"), ("u2", "failed")]) ∧
    ("u3" ∈ urls_to_scrape ["u1", "u2", "u3"] [("u1", "done"), ("u2", "failed")]) ∧
    ("100 mg" ∈ lookupDoses
      (mergeFiles [some ⟨some [⟨some "LSD", some "oral", some "100 mg"⟩]⟩])
      ("LSD", "oral")) :=
  ⟨(resume_filter_and_merge ["u1", "u2", "u3"] [("u1", "done"), ("u2", "failed")] "u1"
      []).1 (by decide),
   (resume_filter_and_merge ["u1", "u2", "u3"] [("u1", "done"), ("u2", "failed")] "u2"
      []).2.1 (by decide) (Or.inr (Or.inl (by decide))),
   (resume_filter_and_merge ["u1", "u2", "u3"] [("u1", "done"), ("u2", "failed")] "u3"
      []).2.1 (by decide) (Or.inl (by decide)),
   (resume_filter_and_merge [] []
      "u" [some ⟨some [⟨some "LSD", some "oral", some "100 mg"⟩]⟩]).2.2
      ⟨some [⟨some "LSD", some "oral", some "100 mg"⟩]⟩
      [⟨some "LSD", some "oral", some "100 mg"⟩] "LSD" "oral" "100 mg"
      (by decide) (by decide) (by decide)⟩

/-! ### Ordered-dict lemmas for the output-ordering claim -/

theorem dictLookup_odictInsert {α : Type} (m : List (String × α)) (k : String) (v : α)
    (k' : String) :
    dictLookup (odictInsert m k v) k' = if k' = k then some v else dictLookup m k' := by
  induction m with
  | nil =>
    simp only [odictInsert, dictLookup]
    by_cases h : k = k'
    · rw [if_pos h, if_pos h.symm]
    · rw [if_neg h, if_neg (fun hh => h hh.symm)]
  | cons e rest ih =>
    obtain ⟨k₀, v₀⟩ := e
    simp only [odictInsert]
    by_cases h0 : k₀ = k
    · subst h0
      rw [if_pos rfl]
      simp only [dictLookup]
      by_cases h1 : k₀ = k'
      · rw [if_pos h1, if_pos h1.symm]
      · rw [if_neg h1, if_neg (fun hh => h1 hh.symm), if_neg h1]
    · rw [if_neg h0]
      simp only [dictLookup]
      by_cases h1 : k₀ = k'
      · have hk : ¬k' = k := fun hh => h0 (h1.trans hh)
        rw [if_pos h1, if_neg hk, if_pos h1]
      · rw [if_neg h1, if_neg h1, ih]

theorem dictLookup_eq_none_iff {α : Type} (m : List (String × α)) (k : String) :
    dictLookup m k = none ↔ k ∉ m.map Prod.fst := by
  induction m with
  | nil => simp [dictLookup]
  | cons e rest ih =>
    obtain ⟨k₀, v₀⟩ := e
    simp only [dictLookup, List.map_cons, List.mem_cons]
    by_cases h : k₀ = k
    · simp [h, eq_comm]
    · simp [h, ih, show ¬k = k₀ from fun hh => h hh.symm]

theorem odictInsert_keys_of_none {α : Type} {m : List (String × α)} {k : String}
    (h : dictLookup m k = none) (v : α) :
    (odictInsert m k v).map Prod.fst = m.map Prod.fst ++ [k] := by
  induction m with
  | nil => simp [odictInsert]
  | cons e rest ih =>
    obtain ⟨k₀, v₀⟩ := e
    simp only [dictLookup] at h
    by_cases h0 : k₀ = k
    · rw [if_pos h0] at h; cases h
    · rw [if_neg h0] at h
      simp [odictInsert, h0, ih h]

theorem buildNormFold_isSome {α : Type} (f : List (String × α)) (n : String) :
    ∀ acc : List (String × α),
      (dictLookup (f.foldl (fun acc e => odictInsert acc (normalize e.1) e.2) acc) n).isSome
        = ((dictLookup acc n).isSome || f.any (fun e => normalize e.1 == n)) := by
  induction f with
  | nil => intro acc; simp
  | cons e rest ih =>
    intro acc
    rw [List.foldl_cons, List.any_cons]
    rw [ih, dictLookup_odictInsert]
    by_cases h : n = normalize e.1
    · simp [h]
    · have hb : (normalize e.1 == n) = false := by
        cases hb2 : (normalize e.1 == n) with
        | false => rfl
        | true => exact absurd (eq_of_beq hb2).symm h
      rw [if_neg h, hb]
      simp

theorem buildNormalized_isSome {α : Type} (f : List (String × α)) (n : String) :
    (dictLookup (buildNormalized f) n).isSome = f.any (fun e => normalize e.1 == n) := by
  rw [buildNormalized, buildNormFold_isSome]
  simp [dictLookup]

theorem buildLookupFold_isSome (ord : List String) (n : String) :
    ∀ acc : List (String × String),
      (dictLookup (ord.foldl (fun acc p => odictInsert acc (normalize p) p) acc) n).isSome
        = ((dictLookup acc n).isSome || ord.any (fun p => normalize p == n)) := by
  induction ord with
  | nil => intro acc; simp
  | cons p rest ih =>
    intro acc
    rw [List.foldl_cons, List.any_cons]
    rw [ih, dictLookup_odictInsert]
    by_cases h : n = normalize p
    · simp [h]
    · have hb : (normalize p == n) = false := by
        cases hb2 : (normalize p == n) with
        | false => rfl
        | true => exact absurd (eq_of_beq hb2).symm h
      rw [if_neg h, hb]
      simp

theorem any_beq_eq_contains (l : List String) (n : String) :
    (l.any fun p => p == n) = l.contains n := by
  induction l with
  | nil => rfl
  | cons a t ih =>
    simp only [List.any_cons, List.contains_cons, ih]
    congr 1
    rw [Bool.eq_iff_iff]
    simp only [beq_iff_eq, decide_eq_true_eq]
    exact eq_comm

theorem buildLookup_isSome (ord : List String) (n : String) :
    (dictLookup (buildLookup ord) n).isSome = (ord.map normalize).contains n := by
  rw [buildLookup, buildLookupFold_isSome]
  simp only [dictLookup, Option.isSome_none, Bool.false_or]
  rw [← any_beq_eq_contains, List.any_map]
  rfl

theorem firstPass_keys {α : Type} (formatted : List (String × α)) :
    ∀ (ord : List String) (acc : List (String × α)), ord.Nodup →
      (∀ p ∈ ord, dictLookup acc p = none) →
      ((ord.foldl (fun acc p =>
          match dictLookup (buildNormalized formatted) (normalize p) with
          | some v => odictInsert acc p v
          | none => acc) acc).map Prod.fst) =
        acc.map Prod.fst ++
          ord.filter (fun p => formatted.any (fun e => normalize e.1 == normalize p)) := by
  intro ord
  induction ord with
  | nil => intro acc _ _; simp
  | cons p ps ih =>
    intro acc hnd hacc
    rw [List.foldl_cons, List.filter_cons]
    by_cases hm : formatted.any (fun e => normalize e.1 == normalize p)
    · have hsome : (dictLookup (buildNormalized formatted) (normalize p)).isSome := by
        rw [buildNormalized_isSome]; exact hm
      obtain ⟨v, hv⟩ := Option.isSome_iff_exists.mp hsome
      rw [hv]
      have hfresh : ∀ q ∈ ps, dictLookup (odictInsert acc p v) q = none := by
        intro q hq
        rw [dictLookup_odictInsert]
        have hqp : ¬q = p := by
          intro hh
          exact (List.nodup_cons.mp hnd).1 (hh ▸ hq)
        rw [if_neg hqp]
        exact hacc q (List.mem_cons_of_mem p hq)
      rw [ih (odictInsert acc p v) (List.nodup_cons.mp hnd).2 hfresh,
        odictInsert_keys_of_none (hacc p (List.mem_cons_self p ps)) v,
        hm]
      simp
    · have hnone : dictLookup (buildNormalized formatted) (normalize p) = none := by
        rw [← Option.not_isSome_iff_eq_none, buildNormalized_isSome]
        exact hm
      rw [hnone]
      rw [ih acc (List.nodup_cons.mp hnd).2
        (fun q hq => hacc q (List.mem_cons_of_mem p hq))]
      have hful : (formatted.any fun e => normalize e.1 == normalize p) = false := by
        cases hb : formatted.any (fun e => normalize e.1 == normalize p) with
        | false => rfl
        | true => exact absurd hb hm
      rw [hful]
      simp

theorem secondPass_keys {α : Type} (ord : List String) :
    ∀ (fs : List (String × α)) (acc : List (String × α)),
      (fs.map Prod.fst).Nodup →
      (∀ e ∈ fs, ¬((ord.map normalize).contains (normalize e.1) = true) →
        dictLookup acc e.1 = none) →
      ((fs.foldl (fun acc e =>
          if (ord.map normalize).contains (normalize e.1) then acc
          else
            match dictLookup (buildLookup ord) (normalize e.1) with
            | some pname => if dictContains acc pname then acc else odictInsert acc pname e.2
            | none => odictInsert acc e.1 e.2) acc).map Prod.fst) =
        acc.map Prod.fst ++
          (fs.filter
            (fun e => !((ord.map normalize).contains (normalize e.1)))).map Prod.fst := by
  intro fs
  induction fs with
  | nil => intro acc _ _; simp
  | cons e es ih =>
    intro acc hnd hacc
    have hnd' : e.1 ∉ es.map Prod.fst ∧ (es.map Prod.fst).Nodup := by
      rw [List.map_cons] at hnd
      exact List.nodup_cons.mp hnd
    rw [List.foldl_cons, List.filter_cons]
    by_cases hc : (ord.map normalize).contains (normalize e.1)
    · rw [if_pos hc, ih acc hnd'.2 (fun e' he' => hacc e' (List.mem_cons_of_mem e he'))]
      have hb : (!(ord.map normalize).contains (normalize e.1)) = false := by rw [hc]; rfl
      rw [hb]
      simp
    · have hcf : (ord.map normalize).contains (normalize e.1) = false := by
        cases hb : (ord.map normalize).contains (normalize e.1) with
        | false => rfl
        | true => exact absurd hb hc
      rw [if_neg hc]
      have hnone : dictLookup (buildLookup ord) (normalize e.1) = none := by
        rw [← Option.not_isSome_iff_eq_none, buildLookup_isSome, hcf]
        simp
      rw [hnone]
      have hfresh : ∀ e' ∈ es, ¬((ord.map normalize).contains (normalize e'.1) = true) →
          dictLookup (odictInsert acc e.1 e.2) e'.1 = none := by
        intro e' he' hnc
        rw [dictLookup_odictInsert]
        have hne : ¬e'.1 = e.1 := by
          intro hh
          exact hnd'.1 (hh ▸ List.mem_map_of_mem Prod.fst he')
        rw [if_neg hne]
        exact hacc e' (List.mem_cons_of_mem e he') hnc
      rw [ih (odictInsert acc e.1 e.2) hnd'.2 hfresh,
        odictInsert_keys_of_none (hacc e (List.mem_cons_self e es) hc) e.2]
      have hb : (!(ord.map normalize).contains (normalize e.1)) = true := by rw [hcf]; rfl
      rw [hb]
      simp

/-- **C6.** The final output lists first exactly those canonical pretty names whose
normalization matches some aggregated raw label, in canonical order and keyed by
the pretty name, followed by the raw labels matching no canonical entry, in
their original encounter order. -/
theorem output_ordering {α : Type} (order : List String) (formatted : List (String × α))
    (hord : order.Nodup) (hfmt : (formatted.map Prod.fst).Nodup) :
    (finalOutput order formatted).map Prod.fst =
      order.filter (fun p => formatted.any (fun e => normalize e.1 == normalize p)) ++
        (formatted.filter
          (fun e => !((order.map normalize).contains (normalize e.1)))).map Prod.fst := by
  simp only [finalOutput]
  have h1 := firstPass_keys formatted order [] hord (fun p _ => rfl)
  have hfresh : ∀ e ∈ formatted,
      ¬((order.map normalize).contains (normalize e.1) = true) →
      dictLookup (order.foldl (fun acc p =>
        match dictLookup (buildNormalized formatted) (normalize p) with
        | some v => odictInsert acc p v
        | none => acc) []) e.1 = none := by
    intro e he hnc
    rw [dictLookup_eq_none_iff, h1]
    simp only [List.map_nil, List.nil_append]
    intro hmem
    apply hnc
    have hord' : e.1 ∈ order := List.mem_of_mem_filter hmem
    have hmm : normalize e.1 ∈ order.map normalize := List.mem_map_of_mem normalize hord'
    simpa [List.contains, List.elem_iff] using hmm
  rw [secondPass_keys order formatted _ hfmt hfresh, h1]
  simp

/-- Witness for C6 at the spec's example: CanonicalOrder `["LSD","Psilocybin"]`
with groups `"Psilocybin"`, `"LSD"`, `"Unknown-X"` yields key order
`["LSD","Psilocybin","Unknown-X"]`. -/
theorem output_ordering_witness :
    (["LSD", "Psilocybin"] : List String).Nodup ∧
    (([("Psilocybin", 0), ("LSD", 1), ("Unknown-X", 2)] : List (String × Nat)).map
      Prod.fst).Nodup ∧
    (finalOutput ["LSD", "Psilocybin"]
        [("Psilocybin", 0), ("LSD", 1), ("Unknown-X", 2)]).map Prod.fst =
      (["LSD", "Psilocybin"] : List String).filter
          (fun p => ([("Psilocybin", 0), ("LSD", 1), ("Unknown-X", 2)] : List (String × Nat)).any
            (fun e => normalize e.1 == normalize p)) ++
        (([("Psilocybin", 0), ("LSD", 1), ("Unknown-X", 2)] : List (String × Nat)).filter
          (fun e => !(((["LSD", "Psilocybin"] : List String).map normalize).contains
            (normalize e.1)))).map Prod.fst ∧
    (finalOutput ["LSD", "Psilocybin"]
        [("Psilocybin", 0), ("LSD", 1), ("Unknown-X", 2)]).map Prod.fst =
      ["LSD", "Psilocybin", "Unknown-X"] :=
  ⟨by decide, by decide,
   output_ordering ["LSD", "Psilocybin"] [("Psilocybin", 0), ("LSD", 1), ("Unknown-X", 2)]
     (by decide) (by decide),
   by decide⟩

/-! ### Character-class and scanning lemmas for the extractor -/

theorem isDigit_not_pySpace {c : Char} (h : c.isDigit = true) : isPySpace c = false := by
  simp [Char.isDigit] at h
  simp only [isPySpace, Bool.or_eq_false_iff, beq_eq_false_iff_ne, ne_eq]
  refine ⟨⟨⟨⟨⟨?_, ?_⟩, ?_⟩, ?_⟩, ?_⟩, ?_⟩ <;>
    (intro he; subst he; exact absurd h.1 (by decide))

theorem isDigit_toLower {c : Char} (h : c.isDigit = true) : c.toLower = c := by
  simp [Char.isDigit] at h
  simp only [Char.toLower]
  split
  · next hcond =>
    exfalso
    revert hcond
    simp
    intro h65
    exact absurd (le_trans h65 h.2) (by decide)
  · rfl

theorem isDigit_ne_comma {c : Char} (h : c.isDigit = true) : (c != ',') = true := by
  simp [Char.isDigit] at h
  simp only [bne_iff_ne, ne_eq]
  intro he
  subst he
  exact absurd h.1 (by decide)

theorem pySpace_toLower {c : Char} (h : isPySpace c = true) : c.toLower = c := by
  simp only [isPySpace, Bool.or_eq_true, beq_iff_eq] at h
  rcases h with ((((rfl | rfl) | rfl) | rfl) | rfl) | rfl <;> rfl

/-- Checked facts about the unit alternatives: nonempty, lowercase-stable, and
made of `[a-zµ]` characters that are neither whitespace nor commas. -/
theorem unitAlts_facts : ∀ alt ∈ unitAlts, alt.toList ≠ [] ∧
    alt.toList.map Char.toLower = alt.toList ∧
    (∀ c ∈ alt.toList, isUnitChar c = true ∧ isPySpace c = false ∧ (c != ',') = true) := by
  decide

/-- Checked facts about the route alternatives: lowercase-stable. -/
theorem methodAlts_facts : ∀ alt ∈ methodAlts,
    alt.toList.map Char.toLower = alt.toList := by
  decide

theorem takeWhile_all {p : Char → Bool} :
    ∀ l : List Char, (∀ c ∈ l, p c) → l.takeWhile p = l := by
  intro l
  induction l with
  | nil => intro _; rfl
  | cons c cs ih =>
    intro h
    rw [List.takeWhile_cons, if_pos (h c (List.mem_cons_self c cs)),
      ih (fun d hd => h d (List.mem_cons_of_mem c hd))]

theorem dropWhile_cons_neg {p : Char → Bool} {c : Char} (hc : ¬p c = true) (l : List Char) :
    (c :: l).dropWhile p = c :: l := by
  rw [List.dropWhile_cons, if_neg hc]

theorem takeWhile_append_sep {p : Char → Bool} {l : List Char} (hall : ∀ c ∈ l, p c)
    {x : Char} (hx : ¬p x = true) (t : List Char) :
    ((l ++ x :: t).takeWhile p = l) ∧ ((l ++ x :: t).dropWhile p = x :: t) := by
  induction l with
  | nil =>
    constructor
    · rw [List.nil_append, List.takeWhile_cons, if_neg hx]
    · rw [List.nil_append, List.dropWhile_cons, if_neg hx]
  | cons a l' ih =>
    have ha : p a := hall a (List.mem_cons_self a l')
    obtain ⟨iht, ihd⟩ := ih (fun d hd => hall d (List.mem_cons_of_mem a hd))
    constructor
    · rw [List.cons_append, List.takeWhile_cons, if_pos ha, iht]
    · rw [List.cons_append, List.dropWhile_cons, if_pos ha, ihd]

theorem ciStrip_spec :
    ∀ (p cs m r : List Char), ciStrip p cs = some (m, r) →
      m.map Char.toLower = p.map Char.toLower ∧ cs = m ++ r := by
  intro p
  induction p with
  | nil =>
    intro cs m r h
    simp only [ciStrip, Option.some.injEq, Prod.mk.injEq] at h
    obtain ⟨rfl, rfl⟩ := h
    exact ⟨rfl, rfl⟩
  | cons a p' ih =>
    intro cs m r h
    cases cs with
    | nil => simp [ciStrip] at h
    | cons c cs' =>
      simp only [ciStrip] at h
      by_cases hl : a.toLower = c.toLower
      · rw [if_pos hl] at h
        cases hrec : ciStrip p' cs' with
        | none => rw [hrec] at h; cases h
        | some pr =>
          rw [hrec] at h
          obtain ⟨m', r'⟩ := pr
          have h2 : some (c :: m', r') = some (m, r) := h
          simp only [Option.some.injEq, Prod.mk.injEq] at h2
          obtain ⟨hmap, happ⟩ := ih cs' m' r' hrec
          rw [← h2.1, ← h2.2]
          constructor
          · simp only [List.map_cons, hmap, hl]
          · simp [happ]
      · rw [if_neg hl] at h; cases h

theorem altCandidates_mem {alts : List String} {cs : List Char}
    {x : List Char × List Char} (h : x ∈ altCandidates alts cs) :
    ∃ a ∈ alts, ciStrip a.toList cs = some x := by
  simpa [altCandidates, List.mem_filterMap] using h

theorem numSpan_spec {cs : List Char} {g : List Char × Option (List Char)}
    {rest : List Char} (h : numSpan cs = some (g, rest)) :
    g.1 ≠ [] ∧ (∀ c ∈ g.1, c.isDigit) ∧
      (∀ fp, g.2 = some fp → fp ≠ [] ∧ ∀ c ∈ fp, c.isDigit) := by
  have htake : ∀ l : List Char, ∀ c ∈ l.takeWhile Char.isDigit, c.isDigit :=
    fun l c hc => List.mem_takeWhile_imp hc
  simp only [numSpan] at h
  by_cases hip : cs.takeWhile Char.isDigit = []
  · rw [if_pos hip] at h; cases h
  · rw [if_neg hip] at h
    split at h
    · next r2 heq =>
      by_cases hfp : r2.takeWhile Char.isDigit = []
      · rw [if_pos hfp] at h
        simp only [Option.some.injEq, Prod.mk.injEq] at h
        obtain ⟨hg, -⟩ := h
        rw [← hg]
        exact ⟨hip, htake cs, fun fp hfp' => by cases hfp'⟩
      · rw [if_neg hfp] at h
        simp only [Option.some.injEq, Prod.mk.injEq] at h
        obtain ⟨hg, -⟩ := h
        rw [← hg]
        refine ⟨hip, htake cs, fun fp hfp' => ?_⟩
        simp only [Option.some.injEq] at hfp'
        rw [← hfp']
        exact ⟨hfp, htake r2⟩
    · simp only [Option.some.injEq, Prod.mk.injEq] at h
      obtain ⟨hg, -⟩ := h
      rw [← hg]
      exact ⟨hip, htake cs, fun fp hfp' => by cases hfp'⟩

theorem numToken_spec {cs g rest : List Char} (h : numToken cs = some (g, rest)) :
    ∃ ip fp : List Char, ip ≠ [] ∧ (∀ c ∈ ip, c.isDigit) ∧
      ((g = ip ∧ fp = []) ∨ (g = ip ++ '.' :: fp ∧ fp ≠ [] ∧ ∀ c ∈ fp, c.isDigit)) := by
  simp only [numToken] at h
  cases hns : numSpan cs with
  | none => rw [hns] at h; cases h
  | some pr =>
    rw [hns] at h
    obtain ⟨⟨ip, fpo⟩, rest2⟩ := pr
    obtain ⟨hip, hipd, hfp⟩ := numSpan_spec hns
    cases fpo with
    | none =>
      have h2 : some (ip, rest2) = some (g, rest) := h
      simp only [Option.some.injEq, Prod.mk.injEq] at h2
      exact ⟨ip, [], hip, hipd, Or.inl ⟨h2.1.symm, rfl⟩⟩
    | some fp =>
      have h2 : some (ip ++ '.' :: fp, rest2) = some (g, rest) := h
      simp only [Option.some.injEq, Prod.mk.injEq] at h2
      obtain ⟨hne, hd⟩ := hfp fp rfl
      exact ⟨ip, fp, hip, hipd, Or.inr ⟨h2.1.symm, hne, hd⟩⟩

theorem lazySub_subChar :
    ∀ (cs acc g rest : List Char), (∀ c ∈ acc, isSubChar c) →
      lazySub acc cs = some (g, rest) → ∀ c ∈ g, isSubChar c := by
  intro cs
  induction cs with
  | nil => intro acc g rest _ h; cases h
  | cons c cs' ih =>
    intro acc g rest hacc h
    simp only [lazySub] at h
    by_cases hc : isSubChar c
    · rw [if_pos hc] at h
      have hacc' : ∀ d ∈ acc ++ [c], isSubChar d := by
        intro d hd
        rcases List.mem_append.mp hd with hd' | hd'
        · exact hacc d hd'
        · rw [List.mem_singleton.mp hd']; exact hc
      cases ht : tryTerm cs' with
      | some rest' =>
        rw [ht] at h
        have h2 : some (acc ++ [c], rest') = some (g, rest) := h
        simp only [Option.some.injEq, Prod.mk.injEq] at h2
        rw [← h2.1]
        exact hacc'
      | none =>
        rw [ht] at h
        exact ih (acc ++ [c]) g rest hacc' h
    · rw [if_neg hc] at h; cases h

theorem tryDrops_subChar :
    ∀ (k : Nat) (cs g rest : List Char), tryDrops k cs = some (g, rest) →
      ∀ c ∈ g, isSubChar c := by
  intro k
  induction k with
  | zero =>
    intro cs g rest h
    exact lazySub_subChar cs [] g rest (fun c hc => absurd hc (List.not_mem_nil c)) h
  | succ k' ih =>
    intro cs g rest h
    simp only [tryDrops] at h
    cases hl : lazySub [] (cs.drop (k' + 1)) with
    | some r =>
      rw [hl] at h
      have h2 : some r = some (g, rest) := h
      rw [Option.some.injEq] at h2
      subst h2
      exact lazySub_subChar _ [] g rest (fun c hc => absurd hc (List.not_mem_nil c)) hl
    | none =>
      rw [hl] at h
      exact ih cs g rest h

theorem subWithWs_subChar {cs g rest : List Char} (h : subWithWs cs = some (g, rest)) :
    ∀ c ∈ g, isSubChar c :=
  tryDrops_subChar _ cs g rest h

theorem collapseWsAux_props :
    ∀ (l : List Char) (b : Bool),
      (∀ c ∈ collapseWsAux b l, c ∈ l ∨ c = ' ') ∧
      (∀ c ∈ collapseWsAux b l, isPySpace c → c = ' ') ∧
      List.Chain' (fun a b => ¬(isPySpace a ∧ isPySpace b)) (collapseWsAux b l) ∧
      (b = true → ∀ c, (collapseWsAux b l).head? = some c → ¬(isPySpace c = true)) := by
  intro l
  induction l with
  | nil =>
    intro b
    refine ⟨fun c hc => absurd hc (List.not_mem_nil c),
      fun c hc => absurd hc (List.not_mem_nil c), List.chain'_nil, ?_⟩
    intro _ c hc
    cases hc
  | cons a l' ih =>
    intro b
    by_cases ha : isPySpace a
    · cases b with
      | true =>
        obtain ⟨ih1, ih2, ih3, ih4⟩ := ih true
        have heq : collapseWsAux true (a :: l') = collapseWsAux true l' := by
          simp [collapseWsAux, ha]
        rw [heq]
        exact ⟨fun c hc => (ih1 c hc).imp_left (List.mem_cons_of_mem a), ih2, ih3, ih4⟩
      | false =>
        obtain ⟨ih1, ih2, ih3, ih4⟩ := ih true
        have heq : collapseWsAux false (a :: l') = ' ' :: collapseWsAux true l' := by
          simp [collapseWsAux, ha]
        rw [heq]
        refine ⟨?_, ?_, ?_, ?_⟩
        · intro c hc
          rcases List.mem_cons.mp hc with rfl | hc'
          · exact Or.inr rfl
          · exact (ih1 c hc').imp_left (List.mem_cons_of_mem a)
        · intro c hc
          rcases List.mem_cons.mp hc with rfl | hc'
          · intro _; rfl
          · exact ih2 c hc'
        · rw [List.chain'_cons']
          refine ⟨?_, ih3⟩
          intro d hd
          intro hcon
          exact ih4 rfl d hd hcon.2
        · intro hb; cases hb
    · obtain ⟨ih1, ih2, ih3, ih4⟩ := ih false
      have heq : collapseWsAux b (a :: l') = a :: collapseWsAux false l' := by
        cases b <;> simp [collapseWsAux, ha]
      rw [heq]
      refine ⟨?_, ?_, ?_, ?_⟩
      · intro c hc
        rcases List.mem_cons.mp hc with rfl | hc'
        · exact Or.inl (List.mem_cons_self _ _)
        · exact (ih1 c hc').imp_left (List.mem_cons_of_mem a)
      · intro c hc
        rcases List.mem_cons.mp hc with rfl | hc'
        · intro hws; exact absurd hws ha
        · exact ih2 c hc'
      · rw [List.chain'_cons']
        refine ⟨?_, ih3⟩
        intro d _ hcon
        exact ha hcon.1
      · intro _ c hc
        rw [List.head?_cons, Option.some.injEq] at hc
        rw [← hc]
        exact ha

theorem mem_pyStrip {s : String} {c : Char} (h : c ∈ (pyStrip s).toList) :
    c ∈ s.toList := by
  simp only [pyStrip] at h
  have h1 : c ∈ ((s.toList.dropWhile isPySpace).reverse.dropWhile isPySpace).reverse := h
  rw [List.mem_reverse] at h1
  have h2 := (List.dropWhile_sublist _).subset h1
  rw [List.mem_reverse] at h2
  exact (List.dropWhile_sublist _).subset h2

/-- The cleaned substance text: only word characters, commas, hyphens and
spaces remain, and no two spaces are adjacent. -/
theorem cleanSubstance_props {cs : List Char} (hall : ∀ c ∈ cs, isSubChar c) :
    (∀ c ∈ (cleanSubstance cs).toList,
      isWordChar c ∨ c = ',' ∨ c = '-' ∨ c = ' ') ∧
    List.Chain' (fun a b => ¬(a = ' ' ∧ b = ' ')) (cleanSubstance cs).toList := by
  obtain ⟨p1, p2, p3, -⟩ := collapseWsAux_props ((pyStrip cs.asString).toList) false
  have hmem : ∀ c ∈ collapseWs ((pyStrip cs.asString).toList),
      isWordChar c ∨ c = ',' ∨ c = '-' ∨ c = ' ' := by
    intro c hc
    rcases p1 c hc with hc' | rfl
    · have hcs : c ∈ cs := mem_pyStrip hc'
      have hsub := hall c hcs
      simp only [isSubChar, Bool.or_eq_true, beq_iff_eq] at hsub
      rcases hsub with ((((hα | hd) | rfl) | rfl) | hws)
      · exact Or.inl (by simp [isWordChar, hα])
      · exact Or.inl (by simp [isWordChar, hd])
      · exact Or.inr (Or.inl rfl)
      · exact Or.inr (Or.inr (Or.inl rfl))
      · exact Or.inr (Or.inr (Or.inr (p2 c hc hws)))
    · exact Or.inr (Or.inr (Or.inr rfl))
  have hpass : ∀ c ∈ collapseWs ((pyStrip cs.asString).toList),
      (isWordChar c || isPySpace c || c == ',' || c == '-') = true := by
    intro c hc
    rcases hmem c hc with hw | rfl | rfl | rfl
    · simp [hw]
    · decide
    · decide
    · decide
  have hfil : (collapseWs ((pyStrip cs.asString).toList)).filter
      (fun c => isWordChar c || isPySpace c || c == ',' || c == '-') =
      collapseWs ((pyStrip cs.asString).toList) := List.filter_eq_self.mpr hpass
  have htl : (cleanSubstance cs).toList = collapseWs ((pyStrip cs.asString).toList) := by
    simp only [cleanSubstance]
    rw [hfil]
    rfl
  rw [htl]
  refine ⟨hmem, ?_⟩
  refine p3.imp ?_
  intro a b hab hcon
  exact hab ⟨by rw [hcon.1]; rfl, by rw [hcon.2]; rfl⟩

theorem findallDoses_mem :
    ∀ (fuel : Nat) (cs : List Char) g, g ∈ findallDoses fuel cs →
      ∃ cs' rest, matchDose cs' = some (g, rest) := by
  intro fuel
  induction fuel with
  | zero => intro cs g h; cases h
  | succ n ih =>
    intro cs g h
    cases cs with
    | nil => cases h
    | cons c cs' =>
      simp only [findallDoses] at h
      cases hm : matchDose (c :: cs') with
      | some p =>
        rw [hm] at h
        have h2 : g ∈ p.1 :: findallDoses n p.2 := h
        rcases List.mem_cons.mp h2 with rfl | h3
        · exact ⟨c :: cs', p.2, by rw [hm]⟩
        · exact ih p.2 g h3
      | none =>
        rw [hm] at h
        exact ih cs' g h

/-- Structure of a successful anchored match: what each capture group is made of. -/
theorem matchDose_spec {cs : List Char}
    {g : List Char × List Char × List Char × List Char} {rest : List Char}
    (h : matchDose cs = some (g, rest)) :
    (∃ ip fp : List Char, ip ≠ [] ∧ (∀ c ∈ ip, c.isDigit) ∧
      ((g.1 = ip ∧ fp = []) ∨ (g.1 = ip ++ '.' :: fp ∧ fp ≠ [] ∧ ∀ c ∈ fp, c.isDigit))) ∧
    (∃ alt ∈ unitAlts, g.2.1.map Char.toLower = alt.toList) ∧
    (∃ alt ∈ methodAlts, g.2.2.1.map Char.toLower = alt.toList) ∧
    (∀ c ∈ g.2.2.2, isSubChar c) := by
  simp only [matchDose] at h
  cases hnt : numToken cs with
  | none => rw [hnt] at h; cases h
  | some pr =>
    rw [hnt] at h
    obtain ⟨amt, r1⟩ := pr
    obtain ⟨uc, hucmem, huc⟩ := List.exists_of_findSome?_eq_some h
    obtain ⟨mc, hmcmem, hmc⟩ := List.exists_of_findSome?_eq_some huc
    cases hsw : subWithWs mc.2 with
    | none => rw [hsw] at hmc; cases hmc
    | some sr =>
      rw [hsw] at hmc
      obtain ⟨sub, rest'⟩ := sr
      have h2 : some ((amt, uc.1, mc.1, sub), rest') = some (g, rest) := hmc
      simp only [Option.some.injEq, Prod.mk.injEq] at h2
      obtain ⟨hg, -⟩ := h2
      subst hg
      obtain ⟨ualt, hua, hustrip⟩ := altCandidates_mem hucmem
      obtain ⟨malt, hma, hmstrip⟩ := altCandidates_mem hmcmem
      refine ⟨numToken_spec hnt, ?_, ?_, subWithWs_subChar hsw⟩
      · exact ⟨ualt, hua, ((ciStrip_spec _ _ _ _ hustrip).1).trans
          (by rw [(unitAlts_facts ualt hua).2.1])⟩
      · exact ⟨malt, hma, ((ciStrip_spec _ _ _ _ hmstrip).1).trans
          (by rw [methodAlts_facts malt hma])⟩

/-- **C9.** Every record the extractor returns has: a dose of the form
`"<number> <unit>"` whose unit token, lower-cased, is one of the enumerated
unit alternatives as matched in the text; a lower-cased route token from the
enumerated route-synonym set; and a substance whose internal whitespace runs
are collapsed to single spaces with every character outside word characters,
comma, hyphen and space stripped. (The extractor is a plain function of the
input text, hence pure, deterministic and stateless.) -/
theorem extractor_record_shape (text : String) (r : RawDoseRecord)
    (h : r ∈ extract_doses_from_text text) :
    (∃ amt u : List Char,
      r.dose = amt.asString ++ " " ++ u.asString ∧ amt ≠ [] ∧
      (∀ c ∈ amt, c.isDigit ∨ c = '.') ∧
      (u.map Char.toLower).asString ∈ unitAlts) ∧
    r.method ∈ methodAlts ∧
    (∀ c ∈ r.substance.toList, isWordChar c ∨ c = ',' ∨ c = '-' ∨ c = ' ') ∧
    List.Chain' (fun a b => ¬(a = ' ' ∧ b = ' ')) r.substance.toList := by
  simp only [extract_doses_from_text, List.mem_map] at h
  obtain ⟨g, hg, rfl⟩ := h
  obtain ⟨cs', rest, hmatch⟩ := findallDoses_mem _ _ g hg
  obtain ⟨⟨ip, fp, hip, hipd, hcase⟩, ⟨ualt, hua, hu⟩, ⟨malt, hma, hm⟩, hsub⟩ :=
    matchDose_spec hmatch
  obtain ⟨hs1, hs2⟩ := cleanSubstance_props hsub
  refine ⟨⟨g.1, g.2.1, rfl, ?_, ?_, ?_⟩, ?_, hs1, hs2⟩
  · rcases hcase with ⟨hgeq, -⟩ | ⟨hgeq, -, -⟩
    · rw [hgeq]; exact hip
    · rw [hgeq]
      intro h0
      exact hip (List.append_eq_nil.mp h0).1
  · rcases hcase with ⟨hgeq, -⟩ | ⟨hgeq, -, hfpd⟩
    · rw [hgeq]
      exact fun c hc => Or.inl (hipd c hc)
    · rw [hgeq]
      intro c hc
      rcases List.mem_append.mp hc with hc' | hc'
      · exact Or.inl (hipd c hc')
      · rcases List.mem_cons.mp hc' with rfl | hc''
        · exact Or.inr rfl
        · exact Or.inl (hfpd c hc'')
  · have : (g.2.1.map Char.toLower).asString = ualt := by rw [hu]; rfl
    rw [this]
    exact hua
  · have : ((⟨cleanSubstance g.2.2.2, g.1.asString ++ " " ++ g.2.1.asString,
        (g.2.2.1.map Char.toLower).asString⟩ : RawDoseRecord).method) = malt := by
      show (g.2.2.1.map Char.toLower).asString = malt
      rw [hm]; rfl
    rw [this]
    exact hma

/-- Witness for C9 at a concrete report text. -/
theorem extractor_record_shape_witness :
    (⟨"MDMA", "130 mg", "oral"⟩ : RawDoseRecord) ∈
      extract_doses_from_text "I took 130 mg oral MDMA (pure stuff)" ∧
    ((∃ amt u : List Char,
      (⟨"MDMA", "130 mg", "oral"⟩ : RawDoseRecord).dose =
        amt.asString ++ " " ++ u.asString ∧ amt ≠ [] ∧
      (∀ c ∈ amt, c.isDigit ∨ c = '.') ∧
      (u.map Char.toLower).asString ∈ unitAlts) ∧
    (⟨"MDMA", "130 mg", "oral"⟩ : RawDoseRecord).method ∈ methodAlts ∧
    (∀ c ∈ (⟨"MDMA", "130 mg", "oral"⟩ : RawDoseRecord).substance.toList,
      isWordChar c ∨ c = ',' ∨ c = '-' ∨ c = ' ') ∧
    List.Chain' (fun a b => ¬(a = ' ' ∧ b = ' '))
      (⟨"MDMA", "130 mg", "oral"⟩ : RawDoseRecord).substance.toList) :=
  ⟨by decide,
   extractor_record_shape "I took 130 mg oral MDMA (pure stuff)"
     ⟨"MDMA", "130 mg", "oral"⟩ (by decide)⟩

/-! ### Round-trip lemmas: extractor doses re-parse inside `analyze_doses` -/

theorem dropWhile_eq_self_of_head {p : Char → Bool} :
    ∀ l : List Char, (∀ c, l.head? = some c → ¬p c = true) → l.dropWhile p = l := by
  intro l h
  cases l with
  | nil => rfl
  | cons c cs => exact dropWhile_cons_neg (h c rfl) cs

theorem mem_of_head? {l : List Char} {c : Char} (h : l.head? = some c) : c ∈ l := by
  cases l with
  | nil => cases h
  | cons a t =>
    rw [List.head?_cons, Option.some.injEq] at h
    rw [← h]
    exact List.mem_cons_self _ _

theorem pyStrip_of_ends {l : List Char}
    (h1 : ∀ c, l.head? = some c → ¬isPySpace c = true)
    (h2 : ∀ c, l.getLast? = some c → ¬isPySpace c = true) :
    (pyStrip l.asString).toList = l := by
  show (((l.dropWhile isPySpace).reverse.dropWhile isPySpace).reverse.asString).toList = l
  rw [dropWhile_eq_self_of_head l h1,
    dropWhile_eq_self_of_head l.reverse
      (fun c hc => h2 c (by rwa [List.head?_reverse] at hc)),
    List.reverse_reverse]
  rfl

theorem map_id_of_eq {f : Char → Char} :
    ∀ l : List Char, (∀ c ∈ l, f c = c) → l.map f = l := by
  intro l
  induction l with
  | nil => intro _; rfl
  | cons c cs ih =>
    intro h
    rw [List.map_cons, h c (List.mem_cons_self c cs),
      ih (fun d hd => h d (List.mem_cons_of_mem c hd))]

/-- Evaluation of the number regex on digits followed by a space. -/
theorem numSpan_digits_sep {ip t : List Char} (hip : ip ≠ []) (hd : ∀ c ∈ ip, c.isDigit) :
    numSpan (ip ++ ' ' :: t) = some ((ip, none), ' ' :: t) := by
  obtain ⟨ht, hdr⟩ := takeWhile_append_sep (p := Char.isDigit) hd (x := ' ') (by decide) t
  simp only [numSpan, ht, hdr, if_neg hip]
  rfl

/-- Evaluation of the number regex on a decimal number followed by a space. -/
theorem numSpan_frac_sep {ip fp t : List Char} (hip : ip ≠ []) (hd : ∀ c ∈ ip, c.isDigit)
    (hfp : fp ≠ []) (hfd : ∀ c ∈ fp, c.isDigit) :
    numSpan (ip ++ '.' :: (fp ++ ' ' :: t)) = some ((ip, some fp), ' ' :: t) := by
  obtain ⟨ht, hdr⟩ :=
    takeWhile_append_sep (p := Char.isDigit) hd (x := '.') (by decide) (fp ++ ' ' :: t)
  obtain ⟨ht2, hdr2⟩ := takeWhile_append_sep (p := Char.isDigit) hfd (x := ' ') (by decide) t
  simp only [numSpan, ht, hdr, if_neg hip, ht2, hdr2, if_neg hfp]

/-- A dose string `"<amount> <unit>"` built from a number group and a
case-insensitive unit-alternative match always re-parses in `analyze_doses`. -/
theorem parseDose_of_shape {amt u : List Char}
    (hcase : (∃ ip : List Char, ip ≠ [] ∧ (∀ c ∈ ip, c.isDigit) ∧ amt = ip) ∨
      (∃ ip fp : List Char, ip ≠ [] ∧ (∀ c ∈ ip, c.isDigit) ∧ fp ≠ [] ∧
        (∀ c ∈ fp, c.isDigit) ∧ amt = ip ++ '.' :: fp))
    (halt : ∃ alt ∈ unitAlts, u.map Char.toLower = alt.toList) :
    (parseDose (amt.asString ++ " " ++ u.asString)).isSome := by
  obtain ⟨alt, hmem, hmap⟩ := halt
  obtain ⟨haltne, -, haltchars⟩ := unitAlts_facts alt hmem
  have hune : u ≠ [] := by
    intro h0
    apply haltne
    rw [← hmap, h0]
    rfl
  have hufacts : ∀ c ∈ u, isPySpace c = false ∧ (c != ',') = true := by
    intro c hc
    have hcl : c.toLower ∈ alt.toList := by
      rw [← hmap]
      exact List.mem_map_of_mem Char.toLower hc
    obtain ⟨-, hws', hcm'⟩ := haltchars c.toLower hcl
    constructor
    · cases hb : isPySpace c with
      | false => rfl
      | true =>
        rw [pySpace_toLower hb, hb] at hws'
        cases hws'
    · cases hbc : (c == ',') with
      | false => simp [bne, hbc]
      | true =>
        have hc' : c = ',' := eq_of_beq hbc
        subst hc'
        rw [show (','.toLower) = ',' from rfl] at hcm'
        exact absurd hcm' (by decide)
  have hamtd : ∀ c ∈ amt, c.isDigit ∨ c = '.' := by
    rcases hcase with ⟨ip, -, hd, rfl⟩ | ⟨ip, fp, -, hd, -, hfd, rfl⟩
    · exact fun c hc => Or.inl (hd c hc)
    · intro c hc
      rcases List.mem_append.mp hc with hc' | hc'
      · exact Or.inl (hd c hc')
      · rcases List.mem_cons.mp hc' with rfl | hc''
        · exact Or.inr rfl
        · exact Or.inl (hfd c hc'')
  have hamtf : ∀ c ∈ amt, isPySpace c = false ∧ (c != ',') = true ∧ c.toLower = c := by
    intro c hc
    rcases hamtd c hc with hdig | rfl
    · exact ⟨isDigit_not_pySpace hdig, isDigit_ne_comma hdig, isDigit_toLower hdig⟩
    · exact ⟨by decide, by decide, rfl⟩
  have hamtne : amt ≠ [] := by
    rcases hcase with ⟨ip, hip, -, rfl⟩ | ⟨ip, fp, hip, -, -, -, rfl⟩
    · exact hip
    · intro h0; exact hip (List.append_eq_nil.mp h0).1
  have hs : amt.asString ++ " " ++ u.asString = (amt ++ ' ' :: u).asString := by
    apply String.ext
    rw [String.data_append, String.data_append]
    show ((amt ++ [' ']) ++ u) = amt ++ ' ' :: u
    rw [List.append_assoc]
    rfl
  rw [hs]
  obtain ⟨a0, amt', rfl⟩ := List.exists_cons_of_ne_nil hamtne
  obtain ⟨u0, u', rfl⟩ := List.exists_cons_of_ne_nil hune
  have hhead : ∀ c, ((a0 :: amt') ++ ' ' :: u0 :: u').head? = some c →
      ¬isPySpace c = true := by
    intro c hc
    rw [List.cons_append, List.head?_cons, Option.some.injEq] at hc
    rw [← hc]
    have := (hamtf a0 (List.mem_cons_self a0 amt')).1
    simp [this]
  have hlast : ∀ c, ((a0 :: amt') ++ ' ' :: u0 :: u').getLast? = some c →
      ¬isPySpace c = true := by
    intro c hc
    rw [List.getLast?_append_cons, List.getLast?_cons_cons] at hc
    have hcmem : c ∈ u0 :: u' := List.mem_of_mem_getLast? hc
    have := (hufacts c hcmem).1
    simp [this]
  have hstrip := pyStrip_of_ends hhead hlast
  have hlower : (pyToLower (pyStrip ((a0 :: amt') ++ ' ' :: u0 :: u').asString)).toList =
      (a0 :: amt') ++ ' ' :: alt.toList := by
    show ((pyStrip ((a0 :: amt') ++ ' ' :: u0 :: u').asString).toList).map Char.toLower =
      (a0 :: amt') ++ ' ' :: alt.toList
    rw [hstrip, List.map_append,
      map_id_of_eq (a0 :: amt') (fun c hc => (hamtf c hc).2.2), List.map_cons,
      show (' '.toLower) = ' ' from rfl, hmap]
  have hclean : cleanDoseStr (((a0 :: amt') ++ ' ' :: u0 :: u').asString) =
      (a0 :: amt') ++ ' ' :: alt.toList := by
    simp only [cleanDoseStr]
    rw [hlower]
    apply List.filter_eq_self.mpr
    intro c hc
    rcases List.mem_append.mp hc with hc' | hc'
    · exact (hamtf c hc').2.1
    · rcases List.mem_cons.mp hc' with rfl | hc''
      · decide
      · have hcl : c ∈ alt.toList := hc''
        obtain ⟨-, -, hcm⟩ := haltchars c hcl
        exact hcm
  have hdw : (' ' :: alt.toList).dropWhile isPySpace = alt.toList := by
    rw [List.dropWhile_cons, if_pos (by decide)]
    apply dropWhile_eq_self_of_head
    intro c hc
    have hcl : c ∈ alt.toList := mem_of_head? hc
    have := (haltchars c hcl).2.1
    simp [this]
  have htw : alt.toList.takeWhile isUnitChar = alt.toList :=
    takeWhile_all _ (fun c hc => (haltchars c hc).1)
  rcases hcase with ⟨ip, hip, hd, heq⟩ | ⟨ip, fp, hip, hd, hfp, hfd, heq⟩
  · have heval : parseDose (((a0 :: amt') ++ ' ' :: u0 :: u').asString) =
        some (numVal (ip, none), alt.toList.asString) := by
      simp only [parseDose]
      rw [hclean, heq, numSpan_digits_sep hip hd]
      simp only [hdw, htw, if_neg haltne]
    rw [heval]
    rfl
  · have heval : parseDose (((a0 :: amt') ++ ' ' :: u0 :: u').asString) =
        some (numVal (ip, some fp), alt.toList.asString) := by
      simp only [parseDose]
      rw [hclean, heq, List.append_assoc, List.cons_append,
        numSpan_frac_sep hip hd hfp hfd]
      simp only [hdw, htw, if_neg haltne]
    rw [heval]
    rfl

theorem analyze_ne_none {doses : List String} (h : parsedDoses doses ≠ []) :
    analyze_doses doses ≠ none := by
  have hpos := doseCount_pos h
  by_cases h1 : doseCount doses = 1
  · rw [analyze_doses_of_one h1]; simp
  · by_cases h5 : doseCount doses < 5
    · rw [analyze_doses_of_small (by omega) (by omega)]; simp
    · rw [analyze_doses_of_ge_five (by omega)]; simp

/-- **C10.** Round trip between extraction and aggregation: every dose string the
extractor produces is accepted by `analyze_doses`' parser, so a non-empty list
of extractor-produced dose strings never makes `analyze_doses` return `none`. -/
theorem extract_analyze_round_trip (text : String) :
    (∀ r ∈ extract_doses_from_text text, (parseDose r.dose).isSome) ∧
    (extract_doses_from_text text ≠ [] →
      analyze_doses ((extract_doses_from_text text).map RawDoseRecord.dose) ≠ none) := by
  have hparse : ∀ r ∈ extract_doses_from_text text, (parseDose r.dose).isSome := by
    intro r hr
    simp only [extract_doses_from_text, List.mem_map] at hr
    obtain ⟨g, hg, rfl⟩ := hr
    obtain ⟨cs', rest, hmatch⟩ := findallDoses_mem _ _ g hg
    obtain ⟨⟨ip, fp, hip, hipd, hcase⟩, ⟨ualt, hua, hu⟩, -, -⟩ := matchDose_spec hmatch
    apply parseDose_of_shape
    · rcases hcase with ⟨hgeq, -⟩ | ⟨hgeq, hfpne, hfpd⟩
      · exact Or.inl ⟨ip, hip, hipd, hgeq⟩
      · exact Or.inr ⟨ip, fp, hip, hipd, hfpne, hfpd, hgeq⟩
    · exact ⟨ualt, hua, hu⟩
  refine ⟨hparse, ?_⟩
  intro hne
  apply analyze_ne_none
  obtain ⟨r0, hr0⟩ : ∃ r, r ∈ extract_doses_from_text text := by
    cases hx : extract_doses_from_text text with
    | nil => exact absurd hx hne
    | cons a t => exact ⟨a, hx ▸ List.mem_cons_self a t⟩
  obtain ⟨v, hv⟩ := Option.isSome_iff_exists.mp (hparse r0 hr0)
  intro hnil
  have hmem : v ∈ parsedDoses ((extract_doses_from_text text).map RawDoseRecord.dose) :=
    List.mem_filterMap.mpr ⟨r0.dose, List.mem_map_of_mem RawDoseRecord.dose hr0, hv⟩
  rw [hnil] at hmem
  exact absurd hmem (List.not_mem_nil v)

/-- Witness for C10 at a concrete report text. -/
theorem extract_analyze_round_trip_witness :
    (⟨"cannabis", "2.5 g", "smoked"⟩ : RawDoseRecord) ∈
      extract_doses_from_text "2.5 g smoked cannabis" ∧
    (parseDose (RawDoseRecord.dose ⟨"cannabis", "2.5 g", "smoked"⟩)).isSome ∧
    extract_doses_from_text "2.5 g smoked cannabis" ≠ [] ∧
    analyze_doses ((extract_doses_from_text "2.5 g smoked cannabis").map
      RawDoseRecord.dose) ≠ none :=
  ⟨by decide,
   (extract_analyze_round_trip "2.5 g smoked cannabis").1
     ⟨"cannabis", "2.5 g", "smoked"⟩ (by decide),
   by decide,
   (extract_analyze_round_trip "2.5 g smoked cannabis").2 (by decide)⟩

/-! ### Ledger round-trip lemmas -/

theorem jsonWs_nil : jsonWs [] = [] := rfl

theorem jsonWs_pair_start (X : List Char) :
    jsonWs ('\n' :: ' ' :: '"' :: X) = '"' :: X := rfl

theorem jsonWs_colon (X : List Char) : jsonWs (':' :: X) = ':' :: X := rfl

theorem jsonWs_sp_quote (X : List Char) : jsonWs (' ' :: '"' :: X) = '"' :: X := rfl

theorem jsonWs_comma (X : List Char) : jsonWs (',' :: X) = ',' :: X := rfl

theorem jsonWs_close (X : List Char) :
    jsonWs ('\n' :: '\x7d' :: X) = '\x7d' :: X := rfl

theorem jsonWs_obrace (X : List Char) :
    jsonWs ('\x7b' :: X) = '\x7b' :: X := rfl

theorem parseJString_plain (content : List Char)
    (h : ∀ c ∈ content, c ≠ '"' ∧ c ≠ '\\' ∧ 32 ≤ c.toNat) :
    ∀ rest : List Char, parseJString (content ++ '"' :: rest) = some (content, rest) := by
  induction content with
  | nil =>
    intro rest
    show parseJString ('"' :: rest) = some ([], rest)
    unfold parseJString
    simp
  | cons c cc ih =>
    intro rest
    obtain ⟨hq, hbs, hctl⟩ := h c (List.mem_cons_self c cc)
    show parseJString (c :: (cc ++ '"' :: rest)) = some (c :: cc, rest)
    unfold parseJString
    rw [if_neg hq, if_neg hbs, if_neg (by omega : ¬(c.toNat < 32)),
      ih (fun d hd => h d (List.mem_cons_of_mem c hd)) rest]
    rfl

theorem dumpPair_toList (e : String × String) :
    (dumpPair e).toList =
      ' ' :: '"' :: (e.1.toList ++ '"' :: ':' :: ' ' :: '"' :: (e.2.toList ++ ['"'])) := by
  show (" \"" ++ e.1 ++ "\": \"" ++ e.2 ++ "\"").data = _
  rw [String.data_append, String.data_append, String.data_append, String.data_append]
  show ((([' ', '"'] ++ e.1.data) ++ ['"', ':', ' ', '"']) ++ e.2.data) ++ ['"'] = _
  simp [List.append_assoc]

theorem jsonPlain_chars {s : String} (h : jsonPlain s) :
    ∀ c ∈ s.toList, c ≠ '"' ∧ c ≠ '\\' ∧ 32 ≤ c.toNat := h

theorem toList_append (a b : String) : (a ++ b).toList = a.toList ++ b.toList :=
  String.data_append a b

/-- Parsing one serialized pair, continuing with whatever follows it. -/
theorem parsePairs_step (f : Nat) (e : String × String) (T : List Char)
    (hk : jsonPlain e.1) (hv : jsonPlain e.2) :
    parsePairs (f + 1) ('\n' :: ' ' :: '"' ::
        (e.1.toList ++ '"' :: ':' :: ' ' :: '"' :: (e.2.toList ++ '"' :: T))) =
      (match jsonWs T with
       | [] => none
       | c6 :: cs6 =>
         if c6 = ',' then
           match parsePairs f cs6 with
           | none => none
           | some (ps, rest) => some ((e.1, e.2) :: ps, rest)
         else if c6 = '\x7d' then some ([(e.1, e.2)], cs6)
         else none) := by
  have s1 : parseJString (e.1.toList ++ '"' :: ':' :: ' ' :: '"' :: (e.2.toList ++ '"' :: T))
      = some (e.1.toList, ':' :: ' ' :: '"' :: (e.2.toList ++ '"' :: T)) :=
    parseJString_plain e.1.toList (jsonPlain_chars hk) _
  have s2 : parseJString (e.2.toList ++ '"' :: T) = some (e.2.toList, T) :=
    parseJString_plain e.2.toList (jsonPlain_chars hv) _
  conv_lhs => rw [parsePairs]
  rw [jsonWs_pair_start]
  simp only [s1, s2, jsonWs_colon, jsonWs_sp_quote, reduceIte, String.asString_toList]

theorem parsePairs_dump :
    ∀ (m : List (String × String)), m ≠ [] →
      (∀ e ∈ m, jsonPlain e.1 ∧ jsonPlain e.2) →
      ∀ fuel : Nat, m.length ≤ fuel →
      parsePairs fuel
        ('\n' :: ((joinStrings ",\n" (m.map dumpPair)).toList ++ ['\n', '\x7d'])) =
        some (m, []) := by
  intro m
  induction m with
  | nil => intro h; exact absurd rfl h
  | cons e m' ih =>
    intro _ hplain fuel hfuel
    obtain ⟨hk, hv⟩ := hplain e (List.mem_cons_self e m')
    cases fuel with
    | zero => simp at hfuel
    | succ f =>
      cases m' with
      | nil =>
        have hshape : '\n' :: ((joinStrings ",\n" ([e].map dumpPair)).toList ++ ['\n', '\x7d'])
            = '\n' :: ' ' :: '"' :: (e.1.toList ++ '"' :: ':' :: ' ' :: '"' ::
                (e.2.toList ++ '"' :: ('\n' :: '\x7d' :: []))) := by
          show '\n' :: ((dumpPair e).toList ++ ['\n', '\x7d']) = _
          rw [dumpPair_toList]
          simp [List.append_assoc]
        rw [hshape, parsePairs_step f e ('\n' :: '\x7d' :: []) hk hv]
        rfl
      | cons e2 m'' =>
        have hshape : '\n' ::
              ((joinStrings ",\n" ((e :: e2 :: m'').map dumpPair)).toList ++ ['\n', '\x7d'])
            = '\n' :: ' ' :: '"' :: (e.1.toList ++ '"' :: ':' :: ' ' :: '"' ::
                (e.2.toList ++ '"' :: (',' :: '\n' ::
                  ((joinStrings ",\n" ((e2 :: m'').map dumpPair)).toList ++ ['\n', '\x7d'])))) := by
          show '\n' :: (((dumpPair e ++ ",\n" ++
              joinStrings ",\n" ((e2 :: m'').map dumpPair)).toList) ++ ['\n', '\x7d']) = _
          rw [toList_append, toList_append, dumpPair_toList,
            show (",\n").toList = [',', '\n'] from rfl]
          simp [List.append_assoc]
        rw [hshape, parsePairs_step f e _ hk hv]
        have hrec := ih (by simp) (fun x hx => hplain x (List.mem_cons_of_mem e hx)) f
          (by simpa using Nat.le_of_succ_le_succ hfuel)
        rw [jsonWs_comma]
        simp only [hrec, reduceIte]

theorem joinDump_length :
    ∀ m : List (String × String),
      m.length ≤ (joinStrings ",\n" (m.map dumpPair)).toList.length := by
  intro m
  induction m with
  | nil => simp [joinStrings]
  | cons e m' ih =>
    cases m' with
    | nil =>
      show 1 ≤ (joinStrings ",\n" [dumpPair e]).toList.length
      rw [show joinStrings ",\n" [dumpPair e] = dumpPair e from rfl, dumpPair_toList]
      simp
    | cons e2 m'' =>
      have hlen : (joinStrings ",\n" ((e :: e2 :: m'').map dumpPair)).toList.length
          = (dumpPair e).toList.length + 2 +
            (joinStrings ",\n" ((e2 :: m'').map dumpPair)).toList.length := by
        show (dumpPair e ++ ",\n" ++ joinStrings ",\n" ((e2 :: m'').map dumpPair)).data.length = _
        rw [String.data_append, String.data_append, List.length_append, List.length_append]
        rfl
      rw [hlen]
      have h2 : (e2 :: m'').length ≤
          (joinStrings ",\n" ((e2 :: m'').map dumpPair)).toList.length := ih
      simp only [List.length_cons] at h2 ⊢
      omega

theorem parseProgressJson_eval {s : String} {TAIL Y : List Char}
    {m : List (String × String)}
    (hdata : s.toList = '\x7b' :: TAIL)
    (hws : jsonWs TAIL = '"' :: Y)
    (hpp : parsePairs (TAIL.length + 1) TAIL = some (m, [])) :
    parseProgressJson s = some m := by
  unfold parseProgressJson
  rw [hdata, jsonWs_obrace]
  simp only [reduceIte, hws, hpp, jsonWs_nil]
  rw [if_neg (show ¬('"' : Char) = '\x7d' by decide)]

/-- **C8.** `load_progress` returns the full persisted mapping when the ledger
file exists and holds the JSON that `json.dump` wrote for it, and returns the
empty mapping — without raising — both when the file is missing and when its
contents fail to decode as JSON. -/
theorem load_progress_contract :
    load_progress none = [] ∧
    (∀ s : String, parseProgressJson s = none → load_progress (some s) = []) ∧
    (∀ m : List (String × String), (∀ e ∈ m, jsonPlain e.1 ∧ jsonPlain e.2) →
      load_progress (some (dumpProgress m)) = m) := by
  refine ⟨rfl, ?_, ?_⟩
  · intro s h
    simp [load_progress, h]
  · intro m hplain
    have hparse : parseProgressJson (dumpProgress m) = some m := by
      cases m with
      | nil => rfl
      | cons e m' =>
        obtain ⟨hk, hv⟩ := hplain e (List.mem_cons_self e m')
        have hdata : (dumpProgress (e :: m')).toList =
            '\x7b' :: ('\n' :: ((joinStrings ",\n" ((e :: m').map dumpPair)).toList
              ++ ['\n', '\x7d'])) := by
          show ("\x7b\n" ++ joinStrings ",\n" ((e :: m').map dumpPair) ++ "\n\x7d").data = _
          rw [String.data_append, String.data_append]
          simp [List.append_assoc]
        have hsuf : ∃ suf : List Char,
            (joinStrings ",\n" ((e :: m').map dumpPair)).toList =
              (dumpPair e).toList ++ suf := by
          cases m' with
          | nil =>
            exact ⟨[], by
              show (dumpPair e).toList = (dumpPair e).toList ++ []
              simp⟩
          | cons e2 m'' =>
            refine ⟨[',', '\n'] ++ (joinStrings ",\n" ((e2 :: m'').map dumpPair)).toList, ?_⟩
            show (dumpPair e ++ ",\n" ++ joinStrings ",\n" ((e2 :: m'').map dumpPair)).toList = _
            rw [toList_append, toList_append, show (",\n").toList = [',', '\n'] from rfl]
            simp [List.append_assoc]
        obtain ⟨suf, hsuf⟩ := hsuf
        have hws : jsonWs ('\n' :: ((joinStrings ",\n" ((e :: m').map dumpPair)).toList
              ++ ['\n', '\x7d'])) = '"' ::
                ((e.1.toList ++ '"' :: ':' :: ' ' :: '"' :: (e.2.toList ++ ['"'])) ++ suf
                  ++ ['\n', '\x7d']) := by
          rw [hsuf, dumpPair_toList]
          rw [show (' ' :: '"' :: (e.1.toList ++ '"' :: ':' :: ' ' :: '"' ::
              (e.2.toList ++ ['"'])) ++ suf) ++ ['\n', '\x7d']
            = ' ' :: '"' :: ((e.1.toList ++ '"' :: ':' :: ' ' :: '"' ::
              (e.2.toList ++ ['"'])) ++ suf ++ ['\n', '\x7d']) from by
            simp [List.append_assoc]]
          exact jsonWs_pair_start _
        have hfuel : (e :: m').length ≤
            ('\n' :: ((joinStrings ",\n" ((e :: m').map dumpPair)).toList
              ++ ['\n', '\x7d'])).length + 1 := by
          have hj := joinDump_length (e :: m')
          simp only [List.length_cons, List.length_append] at hj ⊢
          omega
        have hpp := parsePairs_dump (e :: m') (by simp) hplain
          (('\n' :: ((joinStrings ",\n" ((e :: m').map dumpPair)).toList
            ++ ['\n', '\x7d'])).length + 1) hfuel
        exact parseProgressJson_eval hdata hws hpp
    simp [load_progress, hparse]

/-- Witness for C8: a missing file, a corrupt file and a dumped two-entry
ledger. -/
theorem load_progress_contract_witness :
    load_progress none = [] ∧
    parseProgressJson "\x7bbroken" = none ∧
    load_progress (some "\x7bbroken") = [] ∧
    (∀ e ∈ ([("u1", "done"), ("u2", "failed")] : List (String × String)),
      jsonPlain e.1 ∧ jsonPlain e.2) ∧
    load_progress (some (dumpProgress [("u1", "done"), ("u2", "failed")])) =
      [("u1", "done"), ("u2", "failed")] :=
  ⟨load_progress_contract.1,
   by decide,
   load_progress_contract.2.1 "\x7bbroken" (by decide),
   by decide,
   load_progress_contract.2.2 [("u1", "done"), ("u2", "failed")] (by decide)⟩

end Tripsit
